import Mathlib

/-!
Verification of the coral IOC taxonomy pipeline (shallow embedding).

The definitions below embed the relevant parts of the Python sources:
  tools/iocfiles.py    (IocWbl, IocMasterFile.read, the three merge passes,
                        the complementary reader, write_to_files / load_taxonomy)
  ts-ioc/iocfiles.py   (sorted_ioc_files, duplicated IocMasterFile.read)
  src/iocfiles.py      (earlier revision of sorted_ioc_files)
  tools/iocreader.py   (handle_files write branch)

Spreadsheet cells are modelled as `Option String` (openpyxl yields `None` for
empty cells); Python truthiness of a cell is `truthy`.  Python dicts keyed by
strings are modelled as insertion-ordered association lists with
insert-or-overwrite (`dictInsert`) and first-match lookup (`dictLookup`),
which agrees with dict semantics because `dictInsert` never duplicates a key.
-/

namespace Coral

/-! ### Python string primitives used by the sources -/

/-- The Unicode dagger U+2020, the IOC "extinct" marker glyph. -/
def dagger : Char := '†'

/-- One step of Python `str.title()`: a letter is uppercased when the previous
character is not a letter, lowercased otherwise.  (Python decides by Unicode
casedness; on the ASCII-plus-dagger data handled here the two notions agree.) -/
def pyTitleAux : Bool → List Char → List Char
  | _, [] => []
  | prevAlpha, c :: cs =>
    if c.isAlpha then
      (if prevAlpha then c.toLower else c.toUpper) :: pyTitleAux true cs
    else
      c :: pyTitleAux false cs

/-- Python `s.title()`. -/
def pyTitle (s : String) : String := ⟨pyTitleAux false s.data⟩

/-- Python `s.strip(chars)` / `s.strip()`: drop characters satisfying `p`
from both ends of the string. -/
def pyStrip (p : Char → Bool) (s : String) : String :=
  ⟨((s.data.dropWhile p).reverse.dropWhile p).reverse⟩

/-- Python `s.strip('†')`. -/
def stripDagger (s : String) : String := pyStrip (fun c => c == dagger) s

/-- Python `s.strip()` (whitespace strip). -/
def stripWs (s : String) : String := pyStrip Char.isWhitespace s

/-- Python `s.replace(" †", "")` on the character list: remove every
(non-overlapping, left-to-right) occurrence of a space immediately followed
by the dagger. -/
def dropSpaceDaggerAux : List Char → List Char
  | [] => []
  | [c] => [c]
  | c1 :: c2 :: cs =>
    if c1 = ' ' ∧ c2 = dagger then dropSpaceDaggerAux cs
    else c1 :: dropSpaceDaggerAux (c2 :: cs)

/-- Python `s.replace(" †", "")`. -/
def dropSpaceDagger (s : String) : String := ⟨dropSpaceDaggerAux s.data⟩

/-! ### Python dict as insertion-ordered association list -/

/-- Python `d[k] = v`: overwrite in place if the key exists, else append. -/
def dictInsert {β : Type} (k : String) (v : β) : List (String × β) → List (String × β)
  | [] => [(k, v)]
  | (k0, v0) :: rest =>
    if k0 = k then (k0, v) :: rest else (k0, v0) :: dictInsert k v rest

/-- Python `d[k]` / `k in d`: first binding of `k`. -/
def dictLookup {β : Type} (k : String) : List (String × β) → Option β
  | [] => none
  | (k0, v0) :: rest => if k0 = k then some v0 else dictLookup k rest

/-- Python `d.update(u)`: write every binding of `u` into `d`, in order. -/
def dictUpdate {β : Type} (d u : List (String × β)) : List (String × β) :=
  u.foldl (fun acc kv => dictInsert kv.1 kv.2 acc) d

/-! ### Data model: taxa and the IOC World Bird List aggregate -/

/-- The six taxonomic ranks, as the string tags used by the sources. -/
inductive Rank
  | Infraclass
  | Order
  | Family
  | Genus
  | Species
  | Subspecies
deriving DecidableEq

/-- One alternate-checklist triple from the Other Lists source
(`{'name': ..., 'group': ..., 'family': ...}`). -/
structure ListsTriple where
  name : Option String := none
  group : Option String := none
  family : Option String := none

/-- An Other Lists row entry as built by `IocOtherListsFile.read`.  Entries
stored inside `following_entries` always carry an empty `following_entries`
list of their own in the source, so that inner field is omitted here. -/
structure OLEntry where
  seq_no : Option String := none
  name : Option String := none
  rank : Option String := none
  notes : Option String := none
  iucn_red_list_category : Option String := none
  lists : List (String × ListsTriple) := []

/-- The fields of one taxon dict built by `IocMasterFile.read` (and possibly
extended by the merge passes).  Keys that a Python dict may lack are
`Option`-valued, absent = `none`. -/
structure TaxonData where
  rank : Rank
  name : String
  supertaxon : Option String := none
  binomial_name : Option String := none
  trinomial_name : Option String := none
  other_classifications : List String := []
  authority : Option String := none
  common_names : List (String × Option String) := []
  breeding_range : Option String := none
  breeding_subranges : Option String := none
  nonbreeding_range : Option String := none
  code : Option String := none
  comment : Option String := none
  extinct : Option String := none
  following_entries : Option (List OLEntry) := none
  lists : Option (List (String × ListsTriple)) := none

/-- A taxon: its dict fields plus the ordered `subtaxa` list. -/
inductive Taxon
  | node (data : TaxonData) (subtaxa : List Taxon)

/-- The dict fields of a taxon. -/
def Taxon.data : Taxon → TaxonData
  | .node d _ => d

/-- The `subtaxa` list of a taxon. -/
def Taxon.subtaxa : Taxon → List Taxon
  | .node _ s => s

/-- The six per-rank counters of `IocWbl.stats`. -/
structure Stats where
  infraclass_count : Nat := 0
  order_count : Nat := 0
  family_count : Nat := 0
  genus_count : Nat := 0
  species_count : Nat := 0
  subspecies_count : Nat := 0

/-- The `count` printed by `print_taxonomy_info`: the sum of the six
per-rank counters. -/
def Stats.total (s : Stats) : Nat :=
  s.infraclass_count + s.family_count + s.order_count + s.genus_count +
    s.species_count + s.subspecies_count

/-- The counter of `s` for a given rank (a proof-side view of the six
fields). -/
def Stats.get (s : Stats) : Rank → Nat
  | Rank.Infraclass => s.infraclass_count
  | Rank.Order => s.order_count
  | Rank.Family => s.family_count
  | Rank.Genus => s.genus_count
  | Rank.Species => s.species_count
  | Rank.Subspecies => s.subspecies_count

/-- `IocWbl`: ordered top-level taxa, the flat name index, the version
string and the per-rank statistics. -/
structure IocWbl where
  taxonomy : List Taxon := []
  index : List (String × Taxon) := []
  version : Option String := none
  stats : Stats := {}

/-! ### The master taxonomy builder (`IocMasterFile.read`)

The source attaches each new taxon by chasing last elements:
`self.iocwbl.taxonomy[-1]['subtaxa'][-1]...['subtaxa'].append(taxon)`.
`lastChain n` is the node reached after `taxonomy[-1]` followed by `n`
further `['subtaxa'][-1]` steps; `appendAt n` performs the in-place
`.append` at the end of the chain with `n` `[-1]` steps in total.
Both return `none` exactly when Python raises `IndexError` (`[-1]` on an
empty list). -/

/-- The node reached by `taxonomy[-1]` followed by `n` times `['subtaxa'][-1]`. -/
def lastChain : Nat → List Taxon → Option Taxon
  | 0, l => l.getLast?
  | n + 1, l =>
    match l.getLast? with
    | none => none
    | some t => lastChain n t.subtaxa

/-- One `[-1]['subtaxa']` step of an in-place update: rewrite the `subtaxa`
of the last element of the list with `f`; `none` when the list is empty
(Python `IndexError`) or `f` fails. -/
def descendLast (f : List Taxon → Option (List Taxon)) : List Taxon → Option (List Taxon)
  | [] => none
  | t :: ts =>
    match ts with
    | [] => (f t.subtaxa).map (fun s2 => [Taxon.node t.data s2])
    | _ :: _ => (descendLast f ts).map (fun ts2 => t :: ts2)

/-- `l.append(c)` (always succeeds). -/
def appendLast0 (c : Taxon) (l : List Taxon) : Option (List Taxon) :=
  some (l ++ [c])

/-- `l[-1]['subtaxa'].append(c)` — the Order branch's attachment. -/
def appendLast1 (c : Taxon) : List Taxon → Option (List Taxon) :=
  descendLast (appendLast0 c)

/-- `l[-1]['subtaxa'][-1]['subtaxa'].append(c)` — the Family branch. -/
def appendLast2 (c : Taxon) : List Taxon → Option (List Taxon) :=
  descendLast (appendLast1 c)

/-- Three `[-1]` steps then append — the Genus branch. -/
def appendLast3 (c : Taxon) : List Taxon → Option (List Taxon) :=
  descendLast (appendLast2 c)

/-- Four `[-1]` steps then append — the Species branch. -/
def appendLast4 (c : Taxon) : List Taxon → Option (List Taxon) :=
  descendLast (appendLast3 c)

/-- Five `[-1]` steps then append — the Subspecies branch. -/
def appendLast5 (c : Taxon) : List Taxon → Option (List Taxon) :=
  descendLast (appendLast4 c)

/-- One spreadsheet row of the Master sheet, after the version-dependent
column shift has been applied (the fields are the cells the reader
addresses as `row[0]`, `row[1+shift]`, ..., `row[13+shift]`). -/
structure MasterRow where
  infraclass : Option String := none
  order : Option String := none
  family : Option String := none
  family_en : Option String := none
  genus : Option String := none
  species : Option String := none
  subspecies : Option String := none
  authority : Option String := none
  common_name_en : Option String := none
  breeding_range : Option String := none
  breeding_subranges : Option String := none
  nonbreeding_range : Option String := none
  code : Option String := none
  comment : Option String := none

/-- Python truthiness of a cell value: `None` and `""` are falsy. -/
def truthy : Option String → Bool
  | none => false
  | some s => !(s == "")

/-- The taxon dict as first constructed for every row, before the rank
branches fill in `rank`, `name` and the name transforms.  `rank` and `name`
are placeholders here; every branch that creates a taxon overwrites them. -/
def baseData (r : MasterRow) : TaxonData :=
  { rank := Rank.Infraclass
    name := ""
    other_classifications := []
    authority := r.authority
    common_names := [("en", r.common_name_en)]
    breeding_range := r.breeding_range
    breeding_subranges := r.breeding_subranges
    nonbreeding_range := r.nonbreeding_range
    code := r.code
    comment := r.comment }

/-- The builder's only runtime failure: Python `IndexError` raised by `[-1]`
on an empty list in the attachment chains.  The sources define no typed
structural-order error; this constructor records the untyped crash. -/
inductive ReadErr
  | indexError
deriving DecidableEq

/-- One loop iteration of `IocMasterFile.read` (tools/iocfiles.py 215-292,
identically ts-ioc/iocfiles.py 194-262): classify the row by the first
truthy rank cell, build the taxon, attach it, index it, count it. -/
def readStep (w : IocWbl) (r : MasterRow) : Except ReadErr IocWbl :=
  let base := baseData r
  if truthy r.infraclass then
    let name := r.infraclass.getD ""
    let t := Taxon.node { base with rank := Rank.Infraclass, name := name } []
    Except.ok { w with
      taxonomy := w.taxonomy ++ [t]
      index := dictInsert name t w.index
      stats := { w.stats with infraclass_count := w.stats.infraclass_count + 1 } }
  else if truthy r.order then
    match lastChain 0 w.taxonomy with
    | none => Except.error ReadErr.indexError
    | some parent =>
      let name := r.order.getD ""
      let t := Taxon.node { base with
        rank := Rank.Order, name := name, supertaxon := some parent.data.name } []
      match appendLast1 t w.taxonomy with
      | none => Except.error ReadErr.indexError
      | some tax =>
        Except.ok { w with
          taxonomy := tax
          index := dictInsert name t w.index
          stats := { w.stats with order_count := w.stats.order_count + 1 } }
  else if truthy r.family then
    match lastChain 1 w.taxonomy with
    | none => Except.error ReadErr.indexError
    | some parent =>
      let name := r.family.getD ""
      let t := Taxon.node { base with
        rank := Rank.Family, name := name
        common_names := [("en", r.family_en)]
        supertaxon := some parent.data.name } []
      match appendLast2 t w.taxonomy with
      | none => Except.error ReadErr.indexError
      | some tax =>
        Except.ok { w with
          taxonomy := tax
          index := dictInsert name t w.index
          stats := { w.stats with family_count := w.stats.family_count + 1 } }
  else if truthy r.genus then
    match lastChain 2 w.taxonomy with
    | none => Except.error ReadErr.indexError
    | some parent =>
      let raw := r.genus.getD ""
      -- Strip trailing "extinct" characters U+2020 and whitespace
      let name := stripWs (stripDagger (pyTitle raw))
      let t := Taxon.node { base with
        rank := Rank.Genus, name := name, supertaxon := some parent.data.name } []
      match appendLast3 t w.taxonomy with
      | none => Except.error ReadErr.indexError
      | some tax =>
        Except.ok { w with
          taxonomy := tax
          -- note: the source indexes under the raw cell value `genus`,
          -- not under the canonical `taxon['name']`
          index := dictInsert raw t w.index
          stats := { w.stats with genus_count := w.stats.genus_count + 1 } }
  else if truthy r.species then
    match lastChain 3 w.taxonomy with
    | none => Except.error ReadErr.indexError
    | some parent =>
      let sp := r.species.getD ""
      let genusName := parent.data.name
      -- Strip trailing "extinct" characters U+2020 and whitespace
      let binom := stripWs (stripDagger (genusName ++ " " ++ sp))
      let t := Taxon.node { base with
        rank := Rank.Species, name := sp
        supertaxon := some genusName
        binomial_name := some binom } []
      match appendLast4 t w.taxonomy with
      | none => Except.error ReadErr.indexError
      | some tax =>
        Except.ok { w with
          taxonomy := tax
          index := dictInsert binom t w.index
          stats := { w.stats with species_count := w.stats.species_count + 1 } }
  else if truthy r.subspecies then
    match lastChain 4 w.taxonomy with
    | none => Except.error ReadErr.indexError
    | some parent =>
      match lastChain 3 w.taxonomy with
      | none => Except.error ReadErr.indexError
      | some gparent =>
        let ssp := r.subspecies.getD ""
        let spName := parent.data.name
        let genusName := gparent.data.name
        -- Strip trailing "extinct" characters U+2020 and whitespace,
        -- then remove embedded " †" tokens
        let s := genusName ++ " " ++ spName ++ " " ++ ssp
        let trinom := dropSpaceDagger (stripWs (stripDagger s))
        let t := Taxon.node { base with
          rank := Rank.Subspecies, name := ssp
          supertaxon := some spName
          trinomial_name := some trinom } []
        match appendLast5 t w.taxonomy with
        | none => Except.error ReadErr.indexError
        | some tax =>
          Except.ok { w with
            taxonomy := tax
            index := dictInsert trinom t w.index
            stats := { w.stats with subspecies_count := w.stats.subspecies_count + 1 } }
  else
    Except.ok w

/-- `IocMasterFile.read` from a given state, over the data rows
(`iter_rows(min_row=5)`). -/
def readFrom (w : IocWbl) : List MasterRow → Except ReadErr IocWbl
  | [] => Except.ok w
  | r :: rs =>
    match readStep w r with
    | Except.error e => Except.error e
    | Except.ok w2 => readFrom w2 rs

/-- `IocMasterFile.read`: the builder starts from the empty `IocWbl` created
by `IocMasterFile.__init__`. -/
def read (rows : List MasterRow) : Except ReadErr IocWbl :=
  readFrom {} rows

/-! ### The file-backed tree serializer (`IocWbl.write_to_files` /
`IocWbl.load_taxonomy`, tools/iocfiles.py 77-155)

The output directory is modelled as an association list from file name to
file content.  A taxon file holds the taxon's dict fields together with the
`subtaxa` list rewritten to child file names (exactly what
`_write_taxon_to_file` serializes); `version.json` holds the version.
The model covers one directory: `write_to_files` writes into a freshly
created directory and `load_taxonomy` reads back from it (the source reads
the version marker from its default data directory, which coincides with
the write target in the round-trip run modelled here). -/

/-- Content of one file in the output directory. -/
inductive FVal
  | ver (v : Option String)
  | tax (d : TaxonData) (subfiles : List String)

/-- The output directory: file name to content, insertion ordered. -/
abbrev FS := List (String × FVal)

/-- Python `s.replace(" ", "_")`: the single-character replacement used to
derive file names. -/
def replaceSpaces (s : String) : String :=
  ⟨s.data.map (fun c => if c = ' ' then '_' else c)⟩

/-- The file name derived for a taxon dict: binomial for Species, trinomial
for Subspecies, bare name otherwise, spaces replaced by underscores, plus
`.json`.  (The source indexes `taxon['binomial_name']` directly and would
raise `KeyError` were the field absent; every Species/Subspecies node built
by `read` carries it, and the round-trip theorems only apply to such trees,
so the absent case is defaulted here.) -/
def fnameD (d : TaxonData) : String :=
  match d.rank with
  | Rank.Species => replaceSpaces (d.binomial_name.getD "") ++ ".json"
  | Rank.Subspecies => replaceSpaces (d.trinomial_name.getD "") ++ ".json"
  | _ => d.name ++ ".json"

/-- The `subtaxa_files` list computed by `_write_taxon_to_file`. -/
def subFiles (subs : List Taxon) : List String :=
  subs.map (fun t => fnameD t.data)

mutual

/-- `IocWbl._write_taxon_to_file`: write all children first (in order), then
the node itself with `subtaxa` replaced by the child file names. -/
def writeTaxon (fs : FS) : Taxon → FS
  | Taxon.node d subs =>
    dictInsert (fnameD d) (FVal.tax d (subFiles subs)) (writeList fs subs)

/-- Write a list of taxa in order (the loop over `subtaxa` / over
`self.taxonomy`). -/
def writeList (fs : FS) : List Taxon → FS
  | [] => fs
  | t :: ts => writeList (writeTaxon fs t) ts

end

/-- `IocWbl.write_to_files`: the version marker is written first, then every
top-level taxon tree. -/
def write_to_files (w : IocWbl) : FS :=
  writeList [("version.json", FVal.ver w.version)] w.taxonomy

/-- Does this directory entry hold a taxon of rank Infraclass?  (The
source's `grep -l '"rank": "Infraclass"' *.json`.) -/
def isInfraFile : String × FVal → Bool
  | (_, FVal.tax d _) => d.rank = Rank.Infraclass
  | (_, FVal.ver _) => false

/-- Lexicographic comparison of character lists by code point — the order
in which the shell glob enumerates file names (code-point order coincides
with byte order for UTF-8). -/
def charListLe : List Char → List Char → Bool
  | [], _ => true
  | _ :: _, [] => false
  | a :: as, b :: bs =>
    if a.val < b.val then true
    else if b.val < a.val then false
    else charListLe as bs

/-- Glob order on file names. -/
def strLe (a b : String) : Bool := charListLe a.data b.data

/-- Insert a string into a sorted list (ascending). -/
def insertSorted (s : String) : List String → List String
  | [] => [s]
  | x :: xs => if strLe s x then s :: x :: xs else x :: insertSorted s xs

/-- Sort file names ascending — the order in which the shell expands
`*.json` for the `grep` that locates Infraclass files. -/
def sortNames : List String → List String
  | [] => []
  | x :: xs => insertSorted x (sortNames xs)

/-- The Infraclass file names found by the load step, in glob (sorted)
order. -/
def infraFiles (fs : FS) : List String :=
  sortNames ((fs.filter isInfraFile).map (fun e => e.1))

/-- Load a list of file names in order with the given single-file loader. -/
def loadNames (lt : String → Option Taxon) : List String → Option (List Taxon)
  | [] => some []
  | n :: ns =>
    match lt n, loadNames lt ns with
    | some t, some ts => some (t :: ts)
    | _, _ => none

/-- Re-hydrate the taxon stored under `fname`: load the record and replace
each child file name by the recursively loaded child (`_load_subtaxa`).
`fuel` bounds the recursion depth; `none` when a file is missing, holds the
version marker, or the fuel runs out (the source recursion is unbounded and
terminates because written trees are acyclic). -/
def loadTaxon : Nat → FS → String → Option Taxon
  | 0, _, _ => none
  | fuel + 1, fs, fname =>
    match dictLookup fname fs with
    | some (FVal.tax d sf) =>
      match loadNames (fun n => loadTaxon fuel fs n) sf with
      | some subs => some (Taxon.node d subs)
      | none => none
    | _ => none

/-- The per-child counter increment of `_load_subtaxa`: one branch per rank
below Infraclass (a nested Infraclass record would match no branch). -/
def childTally (r : Rank) (s : Stats) : Stats :=
  match r with
  | Rank.Infraclass => s
  | Rank.Order => { s with order_count := s.order_count + 1 }
  | Rank.Family => { s with family_count := s.family_count + 1 }
  | Rank.Genus => { s with genus_count := s.genus_count + 1 }
  | Rank.Species => { s with species_count := s.species_count + 1 }
  | Rank.Subspecies => { s with subspecies_count := s.subspecies_count + 1 }

mutual

/-- The counters accumulated by `_load_subtaxa` over the strict descendants
of a loaded taxon: each child is tallied by rank, then its own subtree. -/
def tallyTaxon : Taxon → Stats → Stats
  | Taxon.node _ subs, s => tallyList subs s

/-- Tally a loaded `subtaxa` list in order. -/
def tallyList : List Taxon → Stats → Stats
  | [], s => s
  | t :: ts, s => tallyList ts (tallyTaxon t (childTally t.data.rank s))

end

/-- `IocWbl.load_taxonomy`: read the version marker, locate the Infraclass
files in glob order, re-hydrate each tree, and regenerate the statistics by
tallying every visited node (`infraclass_count` once per top-level file,
the other counters inside `_load_subtaxa`).  The flat index that the loader
also rebuilds is not modelled; the round-trip claim quantifies the tree,
the version and the counters. -/
def load_taxonomy (fuel : Nat) (fs : FS) : Option IocWbl :=
  match dictLookup "version.json" fs with
  | some (FVal.ver v) =>
    match loadNames (fun n => loadTaxon fuel fs n) (infraFiles fs) with
    | some ts =>
      some { taxonomy := ts
             index := []
             version := v
             stats := ts.foldl
               (fun s t => tallyTaxon t
                 { s with infraclass_count := s.infraclass_count + 1 }) {} }
    | none => none
  | _ => none

/-! ### The merge engine (tools/iocfiles.py 433-444, 495-499, 670-676)

Each pass iterates the taxonomy's flat index and tests membership of each
existing name in the auxiliary table; matching nodes are updated in place.
The index is modelled as the association list of registered (name, taxon)
pairs; a pass rewrites the taxon of each pair and touches nothing else. -/

/-- Rewrite the dict fields of a taxon, keeping its `subtaxa`. -/
def mapData (f : TaxonData → TaxonData) : Taxon → Taxon
  | Taxon.node d subs => Taxon.node (f d) subs

/-- The auxiliary entry consumed by the cross-reference merge: the
`following_entries` and `lists` values of one Other Lists table row. -/
structure OLAux where
  following_entries : List OLEntry := []
  lists : List (String × ListsTriple) := []

/-- `IocOtherListsFile._add_other_lists`: for index names present in the
aux table, assign `following_entries` and `lists` on the node. -/
def add_other_lists (aux : List (String × OLAux)) :
    List (String × Taxon) → List (String × Taxon)
  | [] => []
  | (n, t) :: rest =>
    match dictLookup n aux with
    | some a =>
      (n, mapData (fun d =>
        { d with following_entries := some a.following_entries
                 lists := some a.lists }) t) :: add_other_lists aux rest
    | none => (n, t) :: add_other_lists aux rest

/-- `IocMultilingualFile._add_languages`: for index names present in the
aux table, `common_names.update(aux[name])` — no rank guard. -/
def add_languages (aux : List (String × List (String × Option String))) :
    List (String × Taxon) → List (String × Taxon)
  | [] => []
  | (n, t) :: rest =>
    match dictLookup n aux with
    | some e =>
      (n, mapData (fun d =>
        { d with common_names := dictUpdate d.common_names e }) t) ::
          add_languages aux rest
    | none => (n, t) :: add_languages aux rest

/-! ### The complementary reader and merge (tools/iocfiles.py 606-742) -/

/-- A key of the complementary reader's aux table.  The ORDER branch builds
its key with a trailing comma in the source (`name = row[5].value.split()[1],`),
i.e. a 1-tuple rather than a string; `tup` records those keys.  A string
membership test (`name in self.taxonomy`) never matches a `tup` key. -/
inductive CKey
  | str (s : String)
  | tup (s : String)
deriving DecidableEq

/-- One complementary aux entry.  The source stores a different dict per
branch; keys a branch does not set are `none` here (the merge only ever
reads `extinct` and `code`). -/
structure ComplEntry where
  name : Option String := none
  rank : Option String := none
  extinct : Option String := none
  code : Option String := none
  comment : Option String := none
  name_eng : Option String := none
  authority : Option String := none
  breeding_range : Option String := none
  nonbreeding_range : Option String := none
  species_count : Option String := none

/-- Lookup in the complementary aux table by string name
(`name in self.taxonomy` where keys may also be ORDER-branch tuples). -/
def clookup (k : CKey) : List (CKey × ComplEntry) → Option ComplEntry
  | [] => none
  | (k0, v0) :: rest => if k0 = k then some v0 else clookup k rest

/-- `IocComplementaryFile._add_complementary_info`: for index names present
in the aux table whose node rank is Genus, Species or Subspecies, copy
`extinct` and `code` from the aux entry onto the node. -/
def add_complementary_info (aux : List (CKey × ComplEntry)) :
    List (String × Taxon) → List (String × Taxon)
  | [] => []
  | (n, t) :: rest =>
    match clookup (CKey.str n) aux with
    | some e =>
      if t.data.rank = Rank.Genus ∨ t.data.rank = Rank.Species ∨
          t.data.rank = Rank.Subspecies then
        (n, mapData (fun d => { d with extinct := e.extinct, code := e.code }) t) ::
          add_complementary_info aux rest
      else
        (n, t) :: add_complementary_info aux rest
    | none => (n, t) :: add_complementary_info aux rest

/-- One row of the complementary sheet: the cells the reader addresses as
`row[1]`, `row[2]`, `row[3]`, `row[5]`, ..., `row[10]`. -/
structure ComplRow where
  c1 : Option String := none
  c2 : Option String := none
  c3 : Option String := none
  c5 : Option String := none
  c6 : Option String := none
  c7 : Option String := none
  c8 : Option String := none
  c9 : Option String := none
  c10 : Option String := none

/-- Failures of the complementary reader: `row[5].value.split()[k]` on a
cell with too few tokens (IndexError), `split()` on a missing cell
(AttributeError on `None`), or use of the `species` variable before any
Species row bound it (UnboundLocalError). -/
inductive ComplErr
  | indexError
  | noneCell
  | unboundSpecies
deriving DecidableEq

/-- Python `s.split()`: split on whitespace runs, no empty tokens. -/
def pySplit (s : String) : List String :=
  (s.data.splitOnP Char.isWhitespace).map (fun l => String.mk l)
    |>.filter (fun t => !(t == ""))

/-- State carried by `IocComplementaryFile.read`: the aux table and the
Python local `species`, bound by the most recent Species row to that row's
`row[6]` (authority column) value. -/
structure ComplState where
  taxonomy : List (CKey × ComplEntry) := []
  species : Option (Option String) := none

/-- Insert into the complementary aux table (Python dict assignment). -/
def cinsert (k : CKey) (v : ComplEntry) :
    List (CKey × ComplEntry) → List (CKey × ComplEntry)
  | [] => [(k, v)]
  | (k0, v0) :: rest =>
    if k0 = k then (k0, v) :: rest else (k0, v0) :: cinsert k v rest

/-- One loop iteration of `IocComplementaryFile.read` (tools/iocfiles.py
690-741): branch on `row[1]` being "Blank"/"ORDER"/"Family"/"Genus"/
"Species", else on `row[2] == "ssp"`.  The ssp key is built from the
`species` local — the previous Species row's `row[6]` (authority) cell —
plus the third token of the ssp row's `row[5]` name cell. -/
def complStep (st : ComplState) (r : ComplRow) : Except ComplErr ComplState :=
  if r.c1 = some "Blank" then
    let name := r.c5.getD ""
    let e : ComplEntry :=
      { name := some name, rank := some "Infraclass", code := r.c9, comment := r.c10 }
    Except.ok { st with taxonomy := cinsert (CKey.str name) e st.taxonomy }
  else if r.c1 = some "ORDER" then
    match r.c5 with
    | none => Except.error ComplErr.noneCell
    | some c5 =>
      match (pySplit c5).get? 1 with
      | none => Except.error ComplErr.indexError
      | some w =>
        let e : ComplEntry :=
          { name := some w, rank := some "Order", code := r.c9, comment := r.c10 }
        Except.ok { st with taxonomy := cinsert (CKey.tup w) e st.taxonomy }
  else if r.c1 = some "Family" then
    match r.c5 with
    | none => Except.error ComplErr.noneCell
    | some c5 =>
      match (pySplit c5).get? 1 with
      | none => Except.error ComplErr.indexError
      | some w =>
        let e : ComplEntry :=
          { species_count := r.c2, name_eng := r.c3, name := some w,
            rank := some "Family", code := r.c9, comment := r.c10 }
        Except.ok { st with taxonomy := cinsert (CKey.str w) e st.taxonomy }
  else if r.c1 = some "Genus" then
    let name := r.c5.getD ""
    let e : ComplEntry :=
      { extinct := r.c2, name := some name, rank := some "Genus",
        authority := r.c6, code := r.c9, comment := r.c10 }
    Except.ok { st with taxonomy := cinsert (CKey.str name) e st.taxonomy }
  else if r.c1 = some "Species" then
    let name := r.c5.getD ""
    let e : ComplEntry :=
      { extinct := r.c2, name := some name, rank := some "Species",
        name_eng := r.c3, authority := r.c6, breeding_range := r.c7,
        nonbreeding_range := r.c8, code := r.c9, comment := r.c10 }
    -- `species = row[6].value`: the authority column, not the name cell
    Except.ok { taxonomy := cinsert (CKey.str name) e st.taxonomy
                species := some r.c6 }
  else if r.c2 = some "ssp" then
    match st.species with
    | none => Except.error ComplErr.unboundSpecies
    | some sp =>
      match r.c5 with
      | none => Except.error ComplErr.noneCell
      | some c5 =>
        match (pySplit c5).get? 2 with
        | none => Except.error ComplErr.indexError
        | some w =>
          -- `name = species + ' ' + row[5].value.split()[2]`
          let name := sp.getD "" ++ " " ++ w
          let e : ComplEntry :=
            { extinct := r.c2, name := some name, rank := some "Subspecies",
              name_eng := r.c3, authority := r.c6, breeding_range := r.c7,
              nonbreeding_range := r.c8, code := r.c9, comment := r.c10 }
          Except.ok { st with taxonomy := cinsert (CKey.str name) e st.taxonomy }
  else
    Except.ok st

/-- `IocComplementaryFile.read` over the data rows (`iter_rows(min_row=3)`),
before the final `_add_complementary_info` call. -/
def complRead : ComplState → List ComplRow → Except ComplErr ComplState
  | st, [] => Except.ok st
  | st, r :: rs =>
    match complStep st r with
    | Except.error e => Except.error e
    | Except.ok st2 => complRead st2 rs

/-! ### Batch classification (`sorted_ioc_files`) and the write guard -/

/-- An input file as far as the batch checks are concerned: its kind order
(Master 1, Other Lists 2, Multilingual 3, Complementary 4) and detected
version. -/
structure IocFile where
  order : Nat
  version : Option String
deriving DecidableEq

/-- The batch-level errors of `sorted_ioc_files`. -/
inductive BatchErr
  | multipleIocFilesOfSameType
  | multipleVersionsOfIocFiles
deriving DecidableEq

/-- Stable sort by the `order` attribute (Python `sorted(..., key=...)`). -/
def insertByOrder (f : IocFile) : List IocFile → List IocFile
  | [] => [f]
  | g :: gs => if f.order < g.order then f :: g :: gs else g :: insertByOrder f gs

/-- Python `sorted(result, key=lambda iocfile: iocfile.order)`. -/
def sortByOrder : List IocFile → List IocFile
  | [] => []
  | f :: fs => insertByOrder f (sortByOrder fs)

/-- `sorted_ioc_files` of ts-ioc/iocfiles.py 124-157 (checks after the
per-file recognition): duplicate kinds are rejected first
(`len(set(orders)) == len(orders)`), then versions must satisfy
`len(set(versions)) <= 1`, then the files are sorted by kind order. -/
def sorted_ioc_files (files : List IocFile) : Except BatchErr (List IocFile) :=
  let orders := files.map (fun f => f.order)
  if orders.dedup.length ≠ orders.length then
    Except.error BatchErr.multipleIocFilesOfSameType
  else
    let versions := files.map (fun f => f.version)
    if versions.dedup.length > 1 then
      Except.error BatchErr.multipleVersionsOfIocFiles
    else
      Except.ok (sortByOrder files)

/-- `sorted_ioc_files` of src/iocfiles.py 30-62: identical except that the
version check is `len(set(versions)) == 1`, so an empty batch is also
rejected. -/
def sorted_ioc_files_src (files : List IocFile) : Except BatchErr (List IocFile) :=
  let orders := files.map (fun f => f.order)
  if orders.dedup.length ≠ orders.length then
    Except.error BatchErr.multipleIocFilesOfSameType
  else
    let versions := files.map (fun f => f.version)
    if versions.dedup.length ≠ 1 then
      Except.error BatchErr.multipleVersionsOfIocFiles
    else
      Except.ok (sortByOrder files)

/-- File-system state seen by the write path of `handle_files`
(tools/iocreader.py 105-115) and `write_master_taxonomy_to_files`
(src/ts-ioc.py 186-202): existing directories and files. -/
structure FsState where
  dirs : List String := []
  files : List (String × FVal) := []

/-- The write-mode failure: the target directory already exists
(`ERROR_DATA_DIR_EXISTS_ALREADY`, the spec's DirectoryAlreadyExistsError). -/
inductive WriteErr
  | dataDirExistsAlready
deriving DecidableEq

/-- The write branch of `handle_files` (and, identically structured,
`write_master_taxonomy_to_files` of src/ts-ioc.py):
`p = os.path.join(output_dir, "ioc")`; if `p` exists, exit with
`ERROR_DATA_DIR_EXISTS_ALREADY` before creating or writing anything;
otherwise create `p`, then write the version marker and all taxon files
under it.  The result pairs the file-system state after the call with the
error, if any. -/
def handleWriteBranch (st : FsState) (p : String) (w : IocWbl) :
    FsState × Option WriteErr :=
  if p ∈ st.dirs then
    (st, some WriteErr.dataDirExistsAlready)
  else
    ({ dirs := st.dirs ++ [p]
       files := st.files ++
         (write_to_files w).map (fun e => (p ++ "/" ++ e.1, e.2)) }, none)

/-! ### Structural predicates and counting functions over built trees -/

mutual

/-- `elemOk pname t`: taxon `t` viewed as a child of a node named `pname`:
its `supertaxon` is `pname`, its rank is not Infraclass, and its own
children are in order. -/
def elemOk (pname : String) : Taxon → Bool
  | Taxon.node d subs =>
    (d.supertaxon == some pname) && !(d.rank == Rank.Infraclass) &&
      goodL d.name subs

/-- `goodL pname l`: every taxon of `l`, and recursively every descendant,
has `supertaxon` equal to its actual parent's name and a non-Infraclass
rank. -/
def goodL (pname : String) : List Taxon → Bool
  | [] => true
  | t :: ts => elemOk pname t && goodL pname ts

end

/-- A well-placed top-level taxon: rank Infraclass, with every descendant's
`supertaxon` naming its actual parent and no Infraclass below the root. -/
def rootOk (t : Taxon) : Bool :=
  (t.data.rank == Rank.Infraclass) && goodL t.data.name t.subtaxa

/-- The whole forest invariant of a built taxonomy. -/
def forestOk (l : List Taxon) : Bool := l.all rootOk

mutual

/-- Number of nodes of the subtree rooted at a taxon. -/
def countTaxon : Taxon → Nat
  | Taxon.node _ subs => 1 + countList subs

/-- Number of nodes of a forest. -/
def countList : List Taxon → Nat
  | [] => 0
  | t :: ts => countTaxon t + countList ts

end

mutual

/-- Number of nodes of rank `r` in the subtree rooted at a taxon. -/
def rcT (r : Rank) : Taxon → Nat
  | Taxon.node d subs => (if d.rank = r then 1 else 0) + rcL r subs

/-- Number of nodes of rank `r` in a forest. -/
def rcL (r : Rank) : List Taxon → Nat
  | [] => 0
  | t :: ts => rcT r t + rcL r ts

end

/-- The invariant maintained by the builder across rows: the structural
forest invariant, each counter equal to the number of nodes of its rank,
and the node count equal to the counter total. -/
def readInv (w : IocWbl) : Prop :=
  forestOk w.taxonomy = true ∧
  w.stats.infraclass_count = rcL Rank.Infraclass w.taxonomy ∧
  w.stats.order_count = rcL Rank.Order w.taxonomy ∧
  w.stats.family_count = rcL Rank.Family w.taxonomy ∧
  w.stats.genus_count = rcL Rank.Genus w.taxonomy ∧
  w.stats.species_count = rcL Rank.Species w.taxonomy ∧
  w.stats.subspecies_count = rcL Rank.Subspecies w.taxonomy ∧
  countList w.taxonomy = w.stats.total

/-! ### Helper views of the written directory -/

mutual

/-- The directory entries `_write_taxon_to_file` produces for one subtree,
in write order (children first, the node's own file last). -/
def entriesTaxon : Taxon → List (String × FVal)
  | Taxon.node d subs =>
    entriesList subs ++ [(fnameD d, FVal.tax d (subFiles subs))]

/-- The directory entries for a forest, in write order. -/
def entriesList : List Taxon → List (String × FVal)
  | [] => []
  | t :: ts => entriesTaxon t ++ entriesList ts

end

mutual

/-- All nodes of a subtree (the node itself first). -/
def nodesTaxon : Taxon → List Taxon
  | Taxon.node d subs => Taxon.node d subs :: nodesList subs

/-- All nodes of a forest. -/
def nodesList : List Taxon → List Taxon
  | [] => []
  | t :: ts => nodesTaxon t ++ nodesList ts

end

mutual

/-- Height of a subtree (a leaf has depth 1). -/
def depthTaxon : Taxon → Nat
  | Taxon.node _ subs => depthList subs + 1

/-- Height of a forest (an empty forest has depth 0). -/
def depthList : List Taxon → Nat
  | [] => 0
  | t :: ts => max (depthTaxon t) (depthList ts)

end

/-- The file names of a directory, in order. -/
def fsKeys (fs : FS) : List String := fs.map (fun e => e.1)

/-- The file names a forest is written to, in write order. -/
def fnamesList (ts : List Taxon) : List String := fsKeys (entriesList ts)

/-- Is a list of strings sorted ascending (adjacent pairs in order)? -/
def sortedNames : List String → Bool
  | [] => true
  | [_] => true
  | x :: y :: r => strLe x y && sortedNames (y :: r)

/-! ### Concrete inputs used by counterexamples and witnesses -/

/-- Pointwise structural preservation between an index and its merged
image: same names in the same positions, and each taxon keeps its `name`,
`rank`, `supertaxon` and `subtaxa`. -/
def preservesStructure (a b : List (String × Taxon)) : Prop :=
  List.Forall₂ (fun p q => p.1 = q.1 ∧ q.2.data.name = p.2.data.name ∧
    q.2.data.rank = p.2.data.rank ∧ q.2.data.supertaxon = p.2.data.supertaxon ∧
    q.2.subtaxa = p.2.subtaxa) a b

/-- Extract the resulting state of a successful read (empty state on
error; used only on concrete runs known to succeed). -/
def okState : Except ReadErr IocWbl → IocWbl
  | Except.ok w => w
  | Except.error _ => {}

/-- A Master prefix establishing infraclass, order and family. -/
def rowsIOF : List MasterRow :=
  [ { infraclass := some "NEOAVES" },
    { order := some "Passeriformes" },
    { family := some "Corvidae", family_en := some "Crows" } ]

/-- Master rows whose two Infraclass names appear in non-alphabetical
order, as in the real checklist (PALEOGNATHAE precedes NEOGNATHAE). -/
def rowsPN : List MasterRow :=
  [ { infraclass := some "PALEOGNATHAE" },
    { infraclass := some "NEOGNATHAE" } ]

/-- The taxonomy built from `rowsPN`. -/
def wPN : IocWbl := okState (read rowsPN)

/-- The spec's end-to-end example rows: a five-deep chain ending in
Corvus corax. -/
def rowsC3 : List MasterRow :=
  rowsIOF ++ [ { genus := some "Corvus" }, { species := some "corax" } ]

/-- A uniform recursive form of the five attachment chains, used only in
proofs: `appendChain n` is `appendLast0 .. appendLast5` for `n = 0 .. 5`. -/
def appendChain : Nat → Taxon → List Taxon → Option (List Taxon)
  | 0, c, l => appendLast0 c l
  | n + 1, c, l => descendLast (appendChain n c) l

/-! ## Basic lemmas -/

theorem taxon_eta (t : Taxon) : Taxon.node t.data t.subtaxa = t := by
  cases t with
  | node d s => rfl

theorem getLast?_decomp {α : Type} {l : List α} {t : α} (h : l.getLast? = some t) :
    l = l.dropLast ++ [t] := by
  induction l with
  | nil => simp at h
  | cons x xs ih =>
    cases xs with
    | nil => simp_all
    | cons y ys =>
      rw [List.getLast?_cons_cons] at h
      have := ih h
      simpa [List.dropLast_cons_of_ne_nil] using this

theorem appendLast1_eq (c : Taxon) (l : List Taxon) :
    appendLast1 c l = appendChain 1 c l := by
  simp [appendLast1, appendChain]

theorem appendLast2_eq (c : Taxon) (l : List Taxon) :
    appendLast2 c l = appendChain 2 c l := by
  have h : appendLast1 c = appendChain 1 c := funext (fun l => appendLast1_eq c l)
  simp [appendLast2, appendChain, h]

theorem appendLast3_eq (c : Taxon) (l : List Taxon) :
    appendLast3 c l = appendChain 3 c l := by
  have h : appendLast2 c = appendChain 2 c := funext (fun l => appendLast2_eq c l)
  simp [appendLast3, appendChain, h]

theorem appendLast4_eq (c : Taxon) (l : List Taxon) :
    appendLast4 c l = appendChain 4 c l := by
  have h : appendLast3 c = appendChain 3 c := funext (fun l => appendLast3_eq c l)
  simp [appendLast4, appendChain, h]

theorem appendLast5_eq (c : Taxon) (l : List Taxon) :
    appendLast5 c l = appendChain 5 c l := by
  have h : appendLast4 c = appendChain 4 c := funext (fun l => appendLast4_eq c l)
  simp [appendLast5, appendChain, h]

/-- Success analysis of one `[-1]['subtaxa']` descent. -/
theorem descendLast_spec {f : List Taxon → Option (List Taxon)}
    {l l2 : List Taxon} (h : descendLast f l = some l2) :
    ∃ t s2, l.getLast? = some t ∧ f t.subtaxa = some s2 ∧
      l2 = l.dropLast ++ [Taxon.node t.data s2] := by
  induction l generalizing l2 with
  | nil => simp [descendLast] at h
  | cons x xs ih =>
    cases xs with
    | nil =>
      simp only [descendLast, Option.map_eq_some'] at h
      obtain ⟨s2, hf, hl2⟩ := h
      exact ⟨x, s2, by simp, hf, by simp [hl2.symm]⟩
    | cons y ys =>
      simp only [descendLast, Option.map_eq_some'] at h
      obtain ⟨ts2, hrec, hl2⟩ := h
      obtain ⟨t, s2, hlast, hf, hts2⟩ := ih hrec
      refine ⟨t, s2, ?_, hf, ?_⟩
      · rw [List.getLast?_cons_cons]; exact hlast
      · rw [← hl2, hts2]
        simp [List.dropLast_cons_of_ne_nil]

@[simp] theorem data_node (d : TaxonData) (s : List Taxon) :
    (Taxon.node d s).data = d := rfl

@[simp] theorem subtaxa_node (d : TaxonData) (s : List Taxon) :
    (Taxon.node d s).subtaxa = s := rfl

/-- `elemOk` through the field accessors. -/
theorem elemOk_eq (pname : String) (t : Taxon) :
    elemOk pname t = ((t.data.supertaxon == some pname) &&
      (!(t.data.rank == Rank.Infraclass)) && goodL t.data.name t.subtaxa) := by
  cases t with
  | node d s => rfl

theorem goodL_append (p : String) (xs ys : List Taxon) :
    goodL p (xs ++ ys) = (goodL p xs && goodL p ys) := by
  induction xs with
  | nil => simp [goodL]
  | cons t ts ih => simp [goodL, ih, Bool.and_assoc]

theorem rcL_append (r : Rank) (xs ys : List Taxon) :
    rcL r (xs ++ ys) = rcL r xs + rcL r ys := by
  induction xs with
  | nil => simp [rcL]
  | cons t ts ih => simp [rcL, ih]; omega

theorem countList_append (xs ys : List Taxon) :
    countList (xs ++ ys) = countList xs + countList ys := by
  induction xs with
  | nil => simp [countList]
  | cons t ts ih => simp [countList, ih]; omega

theorem rcT_eq (r : Rank) (t : Taxon) :
    rcT r t = (if t.data.rank = r then 1 else 0) + rcL r t.subtaxa := by
  cases t with
  | node d s => rfl

theorem lastChain_succ (n : Nat) (l : List Taxon) {t : Taxon}
    (h : l.getLast? = some t) :
    lastChain (n + 1) l = lastChain n t.subtaxa := by
  simp [lastChain, h]

theorem appendChain_rcL (r : Rank) (c : Taxon) :
    ∀ (n : Nat) (l l2 : List Taxon), appendChain n c l = some l2 →
      rcL r l2 = rcL r l + rcT r c := by
  intro n
  induction n with
  | zero =>
    intro l l2 h
    simp only [appendChain, appendLast0, Option.some_inj] at h
    subst h
    rw [rcL_append]
    simp [rcL]
  | succ n ih =>
    intro l l2 h
    simp only [appendChain] at h
    obtain ⟨t, s2, hlast, hf, hl2⟩ := descendLast_spec h
    have hdec := getLast?_decomp hlast
    have hs2 := ih t.subtaxa s2 hf
    subst hl2
    calc rcL r (l.dropLast ++ [Taxon.node t.data s2])
        = rcL r l.dropLast + rcT r (Taxon.node t.data s2) := by
          rw [rcL_append]; simp [rcL]
      _ = rcL r l.dropLast + ((if t.data.rank = r then 1 else 0) + rcL r s2) := by
          simp [rcT]
      _ = rcL r l.dropLast + ((if t.data.rank = r then 1 else 0) +
            rcL r t.subtaxa) + rcT r c := by omega
      _ = rcL r l.dropLast + rcT r t + rcT r c := by
          conv_rhs => rw [← taxon_eta t]
          simp [rcT]
      _ = rcL r l + rcT r c := by
          conv_rhs => rw [hdec]
          rw [rcL_append]; simp [rcL]

theorem appendChain_countList (c : Taxon) :
    ∀ (n : Nat) (l l2 : List Taxon), appendChain n c l = some l2 →
      countList l2 = countList l + countTaxon c := by
  intro n
  induction n with
  | zero =>
    intro l l2 h
    simp only [appendChain, appendLast0, Option.some_inj] at h
    subst h
    rw [countList_append]
    simp [countList]
  | succ n ih =>
    intro l l2 h
    simp only [appendChain] at h
    obtain ⟨t, s2, hlast, hf, hl2⟩ := descendLast_spec h
    have hdec := getLast?_decomp hlast
    have hs2 := ih t.subtaxa s2 hf
    subst hl2
    calc countList (l.dropLast ++ [Taxon.node t.data s2])
        = countList l.dropLast + (1 + countList s2) := by
          rw [countList_append]; simp [countList, countTaxon]
      _ = countList l.dropLast + (1 + countList t.subtaxa) + countTaxon c := by
          omega
      _ = countList l.dropLast + countTaxon t + countTaxon c := by
          conv_rhs => rw [← taxon_eta t]
          simp [countTaxon]
      _ = countList l + countTaxon c := by
          conv_rhs => rw [hdec]
          rw [countList_append]; simp [countList]

theorem appendChain_goodL {c : Taxon} (hsub : c.subtaxa = [])
    (hrank : (c.data.rank == Rank.Infraclass) = false) :
    ∀ (n : Nat) (l l2 : List Taxon) (p : String) (parent : Taxon),
      lastChain n l = some parent →
      appendChain (n + 1) c l = some l2 →
      (c.data.supertaxon == some parent.data.name) = true →
      goodL p l = true →
      goodL p l2 = true := by
  intro n
  induction n with
  | zero =>
    intro l l2 p parent hpar happ hsup hgood
    simp only [appendChain] at happ
    obtain ⟨t, s2, hlast, hf, hl2⟩ := descendLast_spec happ
    simp only [lastChain] at hpar
    rw [hlast] at hpar
    injection hpar with hpt
    subst hpt
    simp only [appendLast0, Option.some_inj] at hf
    have hdec := getLast?_decomp hlast
    rw [hdec, goodL_append] at hgood
    simp only [Bool.and_eq_true] at hgood
    obtain ⟨hdrop, hel⟩ := hgood
    simp only [goodL, Bool.and_eq_true] at hel
    obtain ⟨helem, -⟩ := hel
    subst hl2
    rw [goodL_append]
    simp only [Bool.and_eq_true]
    refine ⟨hdrop, ?_⟩
    rw [← taxon_eta t] at helem
    simp only [elemOk, Bool.and_eq_true] at helem
    obtain ⟨⟨hst, hrk⟩, hgl⟩ := helem
    subst hf
    have hc : elemOk t.data.name c = true := by
      rw [elemOk_eq, hsub]
      simp [goodL, hsup, hrank]
    simp [goodL, elemOk, goodL_append, hst, hrk, hgl, hc]
  | succ n ih =>
    intro l l2 p parent hpar happ hsup hgood
    simp only [appendChain] at happ
    obtain ⟨t, s2, hlast, hf, hl2⟩ := descendLast_spec happ
    rw [lastChain_succ n l hlast] at hpar
    have hdec := getLast?_decomp hlast
    rw [hdec, goodL_append] at hgood
    simp only [Bool.and_eq_true] at hgood
    obtain ⟨hdrop, hel⟩ := hgood
    simp only [goodL, Bool.and_eq_true] at hel
    obtain ⟨helem, -⟩ := hel
    rw [← taxon_eta t] at helem
    simp only [elemOk, Bool.and_eq_true] at helem
    obtain ⟨⟨hst, hrk⟩, hgl⟩ := helem
    have hs2 : goodL t.data.name s2 = true := by
      have := ih t.subtaxa s2 t.data.name parent hpar ?_ hsup hgl
      · exact this
      · simpa [appendChain] using hf
    subst hl2
    rw [goodL_append]
    simp only [Bool.and_eq_true]
    exact ⟨hdrop, by simp [goodL, elemOk, hst, hrk, hs2]⟩

/-- Appending a fresh leaf to the subtaxa of its chain parent preserves the
forest invariant. -/
theorem appendChain_forestOk {c : Taxon} (hsub : c.subtaxa = [])
    (hrank : (c.data.rank == Rank.Infraclass) = false)
    (n : Nat) (l l2 : List Taxon) (parent : Taxon)
    (hpar : lastChain n l = some parent)
    (happ : appendChain (n + 1) c l = some l2)
    (hsup : (c.data.supertaxon == some parent.data.name) = true)
    (hfo : forestOk l = true) :
    forestOk l2 = true := by
  simp only [appendChain] at happ
  obtain ⟨t, s2, hlast, hf, hl2⟩ := descendLast_spec happ
  have hdec := getLast?_decomp hlast
  rw [hdec] at hfo
  simp only [forestOk, List.all_append, Bool.and_eq_true, List.all_cons,
    List.all_nil, Bool.and_true] at hfo
  obtain ⟨hdrop, hroot⟩ := hfo
  simp only [rootOk, Bool.and_eq_true] at hroot
  obtain ⟨hrk, hgl⟩ := hroot
  have hs2 : goodL t.data.name s2 = true := by
    cases n with
    | zero =>
      simp only [lastChain] at hpar
      rw [hlast] at hpar
      injection hpar with hpt
      subst hpt
      simp only [appendChain, appendLast0, Option.some_inj] at hf
      subst hf
      have hc : elemOk t.data.name c = true := by
        rw [elemOk_eq, hsub]
        simp [goodL, hsup, hrank]
      simp [goodL_append, goodL, hgl, hc]
    | succ m =>
      rw [lastChain_succ m l hlast] at hpar
      exact appendChain_goodL hsub hrank m t.subtaxa s2 t.data.name parent
        hpar hf hsup hgl
  subst hl2
  simp only [forestOk, List.all_append, Bool.and_eq_true, List.all_cons,
    List.all_nil, Bool.and_true]
  exact ⟨hdrop, by simp [rootOk, hrk, hs2]⟩

/-- One successful rank branch of `readStep`: appending the freshly built
leaf at its chain parent and bumping exactly the matching counter
preserves the builder invariant. -/
theorem readInv_append {w : IocWbl} {tax : List Taxon} {parent : Taxon}
    {d : TaxonData} {idx2 : List (String × Taxon)} {v2 : Option String}
    {stats2 : Stats} (k : Nat)
    (hpar : lastChain k w.taxonomy = some parent)
    (happ : appendChain (k + 1) (Taxon.node d []) w.taxonomy = some tax)
    (hsup : (d.supertaxon == some parent.data.name) = true)
    (hrank : (d.rank == Rank.Infraclass) = false)
    (hst : ∀ r0 : Rank, stats2.get r0 =
      w.stats.get r0 + (if d.rank = r0 then 1 else 0))
    (hinv : readInv w) :
    readInv { taxonomy := tax, index := idx2, version := v2, stats := stats2 } := by
  obtain ⟨hfo, hic, hor, hfa, hge, hsp, hss, hcnt⟩ := hinv
  have hgood := appendChain_forestOk (c := Taxon.node d []) rfl
    (by simpa using hrank) k w.taxonomy tax parent hpar happ (by simpa using hsup) hfo
  have hrcl : ∀ r0, rcL r0 tax =
      rcL r0 w.taxonomy + (if d.rank = r0 then 1 else 0) := by
    intro r0
    have h := appendChain_rcL r0 (Taxon.node d []) (k + 1) w.taxonomy tax happ
    simpa [rcT, rcL] using h
  have hcl : countList tax = countList w.taxonomy + 1 := by
    have h := appendChain_countList (Taxon.node d []) (k + 1) w.taxonomy tax happ
    simpa [countTaxon, countList] using h
  have hIc := hst Rank.Infraclass
  have hOr := hst Rank.Order
  have hFa := hst Rank.Family
  have hGe := hst Rank.Genus
  have hSp := hst Rank.Species
  have hSs := hst Rank.Subspecies
  simp only [Stats.get] at hIc hOr hFa hGe hSp hSs
  refine ⟨hgood, ?_, ?_, ?_, ?_, ?_, ?_, ?_⟩
  · rw [hIc, hic, hrcl]
  · rw [hOr, hor, hrcl]
  · rw [hFa, hfa, hrcl]
  · rw [hGe, hge, hrcl]
  · rw [hSp, hsp, hrcl]
  · rw [hSs, hss, hrcl]
  · rw [hcl, hcnt]
    simp only [Stats.total, hIc, hOr, hFa, hGe, hSp, hSs,
      hic, hor, hfa, hge, hsp, hss]
    cases d.rank <;> simp at hrank ⊢ <;> omega

/-- `readStep` preserves the builder invariant. -/
theorem readStep_inv {w w2 : IocWbl} {r : MasterRow}
    (hok : readStep w r = Except.ok w2) (hinv : readInv w) : readInv w2 := by
  have hinv2 := hinv
  obtain ⟨hfo, hic, hor, hfa, hge, hsp, hss, hcnt⟩ := hinv2
  simp only [readStep] at hok
  split at hok
  · -- Infraclass row
    injection hok with hw2
    subst hw2
    refine ⟨?_, ?_, ?_, ?_, ?_, ?_, ?_, ?_⟩
    · simp only [forestOk, List.all_append, Bool.and_eq_true]
      exact ⟨hfo, by simp [rootOk, goodL]⟩
    · simp [rcL_append, rcL, rcT, hic]
    · simp [rcL_append, rcL, rcT, hor]
    · simp [rcL_append, rcL, rcT, hfa]
    · simp [rcL_append, rcL, rcT, hge]
    · simp [rcL_append, rcL, rcT, hsp]
    · simp [rcL_append, rcL, rcT, hss]
    · rw [countList_append, hcnt]
      simp [countList, countTaxon, Stats.total]
      omega
  · split at hok
    · -- Order row
      split at hok
      · simp at hok
      · rename_i parent hpar
        split at hok
        · simp at hok
        · rename_i tax happ
          rw [appendLast1_eq] at happ
          injection hok with hw2
          subst hw2
          refine readInv_append 0 hpar happ (by simp) rfl ?_ hinv
          intro r0
          cases r0 <;> simp [Stats.get]
    · split at hok
      · -- Family row
        split at hok
        · simp at hok
        · rename_i parent hpar
          split at hok
          · simp at hok
          · rename_i tax happ
            rw [appendLast2_eq] at happ
            injection hok with hw2
            subst hw2
            refine readInv_append 1 hpar happ (by simp) rfl ?_ hinv
            intro r0
            cases r0 <;> simp [Stats.get]
      · split at hok
        · -- Genus row
          split at hok
          · simp at hok
          · rename_i parent hpar
            split at hok
            · simp at hok
            · rename_i tax happ
              rw [appendLast3_eq] at happ
              injection hok with hw2
              subst hw2
              refine readInv_append 2 hpar happ (by simp) rfl ?_ hinv
              intro r0
              cases r0 <;> simp [Stats.get]
        · split at hok
          · -- Species row
            split at hok
            · simp at hok
            · rename_i parent hpar
              split at hok
              · simp at hok
              · rename_i tax happ
                rw [appendLast4_eq] at happ
                injection hok with hw2
                subst hw2
                refine readInv_append 3 hpar happ (by simp) rfl ?_ hinv
                intro r0
                cases r0 <;> simp [Stats.get]
          · split at hok
            · -- Subspecies row
              split at hok
              · simp at hok
              · rename_i parent hpar
                split at hok
                · simp at hok
                · rename_i gparent hgpar
                  split at hok
                  · simp at hok
                  · rename_i tax happ
                    rw [appendLast5_eq] at happ
                    injection hok with hw2
                    subst hw2
                    refine readInv_append 4 hpar happ (by simp) rfl ?_ hinv
                    intro r0
                    cases r0 <;> simp [Stats.get]
            · -- no rank cell truthy: the row is skipped
              injection hok with hw2
              subst hw2
              exact hinv

theorem readFrom_inv : ∀ (rows : List MasterRow) (w w2 : IocWbl),
    readFrom w rows = Except.ok w2 → readInv w → readInv w2 := by
  intro rows
  induction rows with
  | nil =>
    intro w w2 h hinv
    simp only [readFrom] at h
    injection h with h2
    subst h2
    exact hinv
  | cons r rs ih =>
    intro w w2 h hinv
    simp only [readFrom] at h
    split at h
    · simp at h
    · rename_i w1 hstep
      exact ih w1 w2 h (readStep_inv hstep hinv)

/-- Every successful `IocMasterFile.read` run satisfies the builder
invariant. -/
theorem read_inv {rows : List MasterRow} {w : IocWbl}
    (h : read rows = Except.ok w) : readInv w := by
  refine readFrom_inv rows {} w h ?_
  refine ⟨rfl, rfl, rfl, rfl, rfl, rfl, rfl, rfl⟩

/-! ## The claims -/

/-- C1.  The spec requires that a lower-rank row arriving before its parent
rank fail with a typed, catchable StructuralOrderError.  The code instead
chases `taxonomy[-1]['subtaxa'][-1]...` and crashes with an untyped
IndexError (`[-1]` on an empty list); no StructuralOrderError type exists
anywhere in the sources.  This theorem evaluates the builder at two failing
inputs: a Species row as the very first row, and a Species row after
infraclass/order/family rows but before any Genus row.  `ReadErr.indexError`
is the model's rendering of the raw IndexError crash. -/
theorem c1_species_before_genus_is_index_error :
    read [ { species := some "corax" } ] = Except.error ReadErr.indexError ∧
    read (rowsIOF ++ [ { species := some "corax" } ]) =
      Except.error ReadErr.indexError := by
  exact ⟨rfl, rfl⟩

/-- C3.  For every well-formed Master input (one the builder's read
completes on), the number of nodes in the tree equals the sum of the six
per-rank counters (`Stats.total`), every top-level taxon has rank
Infraclass, and every deeper node's `supertaxon` equals the name of the
node it hangs under (`forestOk`). -/
theorem c3_counts_and_parent_links (rows : List MasterRow) (w : IocWbl)
    (h : read rows = Except.ok w) :
    countList w.taxonomy = w.stats.total ∧ forestOk w.taxonomy = true := by
  obtain ⟨hfo, -, -, -, -, -, -, hcnt⟩ := read_inv h
  exact ⟨hcnt, hfo⟩

/-- Witness for C3 at the end-to-end example of the spec: the five-row
chain NEOAVES / Passeriformes / Corvidae / Corvus / corax. -/
theorem c3_witness :
    read rowsC3 = Except.ok (okState (read rowsC3)) ∧
    (countList (okState (read rowsC3)).taxonomy =
        (okState (read rowsC3)).stats.total ∧
      forestOk (okState (read rowsC3)).taxonomy = true) :=
  ⟨rfl, c3_counts_and_parent_links rowsC3 (okState (read rowsC3)) rfl⟩

/-- C4.  The name transforms of the builder, at the spec's concrete cases:
a Genus cell `"Abc†"` produces the genus name `"Abc"`; genus `"Abc"` with
species cell `"def†"` produces the binomial `"Abc def"`; genus `"Abc"`,
species `"def"`, subspecies cell `"ghi†"` produce the trinomial
`"Abc def ghi"`; and a space-prefixed marker inside the trinomial (species
cell `"def †"`) is removed from the interior as well. -/
theorem c4_name_transforms :
    ((lastChain 3 (okState (read (rowsIOF ++
        [ { genus := some "Abc†" } ]))).taxonomy).map
      (fun t => t.data.name) = some "Abc") ∧
    ((lastChain 4 (okState (read (rowsIOF ++
        [ { genus := some "Abc" }, { species := some "def†" } ]))).taxonomy).map
      (fun t => t.data.binomial_name) = some (some "Abc def")) ∧
    ((lastChain 5 (okState (read (rowsIOF ++
        [ { genus := some "Abc" }, { species := some "def" },
          { subspecies := some "ghi†" } ]))).taxonomy).map
      (fun t => t.data.trinomial_name) = some (some "Abc def ghi")) ∧
    ((lastChain 5 (okState (read (rowsIOF ++
        [ { genus := some "Abc" }, { species := some "def †" },
          { subspecies := some "ghi" } ]))).taxonomy).map
      (fun t => t.data.trinomial_name) = some (some "Abc def ghi")) := by
  exact ⟨rfl, rfl, rfl, rfl⟩

/-- C5 counterexample.  The claim says a Genus row is registered in the
flat index under its canonical (title-cased, marker-stripped) name.  For
the genus cell `"ABC†"` the node's canonical name is `"Abc"`, yet looking
up `"Abc"` in the index fails: the source registers the node under the raw
cell value (`self.iocwbl.index[genus] = taxon`), here `"ABC†"`. -/
theorem c5_counterexample :
    dictLookup "Abc" (okState (read (rowsIOF ++
      [ { genus := some "ABC†" } ]))).index = none ∧
    (dictLookup "ABC†" (okState (read (rowsIOF ++
      [ { genus := some "ABC†" } ]))).index).map
        (fun t => t.data.name) = some "Abc" := by
  exact ⟨rfl, rfl⟩

/-- C5 as amended.  A Genus row's node is registered in the flat index
under the raw genus cell value, while the node's `name` field holds the
canonical title-cased, dagger- and whitespace-stripped form; the two agree
only when the cell is already canonical. -/
theorem c5_genus_indexed_under_raw_cell {w w2 : IocWbl} {r : MasterRow}
    (hic : truthy r.infraclass = false) (hor : truthy r.order = false)
    (hfa : truthy r.family = false) (hge : truthy r.genus = true)
    (hok : readStep w r = Except.ok w2) :
    ∃ t : Taxon,
      w2.index = dictInsert (r.genus.getD "") t w.index ∧
      t.data.name = stripWs (stripDagger (pyTitle (r.genus.getD ""))) ∧
      t.data.rank = Rank.Genus := by
  simp only [readStep, hic, hor, hfa, hge, Bool.false_eq_true, if_false,
    if_true] at hok
  split at hok
  · simp at hok
  · split at hok
    · simp at hok
    · injection hok with hw2
      subst hw2
      exact ⟨_, rfl, rfl, rfl⟩

/-- Witness for C5 as amended, at the genus cell `"ABC†"`. -/
theorem c5_witness :
    truthy (MasterRow.genus { genus := some "ABC†" }) = true ∧
    readStep (okState (read rowsIOF)) { genus := some "ABC†" } =
      Except.ok (okState (read (rowsIOF ++ [ { genus := some "ABC†" } ]))) ∧
    ∃ t : Taxon,
      (okState (read (rowsIOF ++ [ { genus := some "ABC†" } ]))).index =
        dictInsert ((MasterRow.genus { genus := some "ABC†" }).getD "") t
          (okState (read rowsIOF)).index ∧
      t.data.name = stripWs (stripDagger (pyTitle
        ((MasterRow.genus { genus := some "ABC†" }).getD ""))) ∧
      t.data.rank = Rank.Genus :=
  ⟨rfl, rfl, c5_genus_indexed_under_raw_cell rfl rfl rfl rfl rfl⟩

theorem mapData_data (f : TaxonData → TaxonData) (t : Taxon) :
    (mapData f t).data = f t.data := by
  cases t with
  | node d s => rfl

theorem mapData_subtaxa (f : TaxonData → TaxonData) (t : Taxon) :
    (mapData f t).subtaxa = t.subtaxa := by
  cases t with
  | node d s => rfl

/-- C6.  Merge scoping: an Order-rank node whose name matches a
complementary aux entry passes through `_add_complementary_info` untouched
(the rank guard admits only Genus/Species/Subspecies), while any node of
any rank whose name matches a multilingual aux entry has its
`common_names` updated by `_add_languages`. -/
theorem c6_merge_scoping (auxC : List (CKey × ComplEntry))
    (auxM : List (String × List (String × Option String)))
    (idx : List (String × Taxon)) (n : String) (t : Taxon)
    (e : ComplEntry) (eM : List (String × Option String))
    (hmem : (n, t) ∈ idx)
    (hrank : t.data.rank = Rank.Order)
    (_hC : clookup (CKey.str n) auxC = some e)
    (hM : dictLookup n auxM = some eM) :
    (n, t) ∈ add_complementary_info auxC idx ∧
    (n, mapData (fun d =>
      { d with common_names := dictUpdate d.common_names eM }) t) ∈
        add_languages auxM idx := by
  constructor
  · induction idx with
    | nil => simp at hmem
    | cons p rest ih =>
      obtain ⟨pn, pt⟩ := p
      rcases List.mem_cons.1 hmem with heq | hmem2
      · injection heq with h1 h2
        subst h1
        subst h2
        simp only [add_complementary_info]
        cases hc : clookup (CKey.str n) auxC with
        | none => exact List.mem_cons_self _ _
        | some e2 =>
          rw [hrank]
          simp only [reduceIte, reduceCtorEq, or_self, or_false, false_or]
          exact List.mem_cons_self _ _
      · simp only [add_complementary_info]
        split
        · split
          · exact List.mem_cons_of_mem _ (ih hmem2)
          · exact List.mem_cons_of_mem _ (ih hmem2)
        · exact List.mem_cons_of_mem _ (ih hmem2)
  · induction idx with
    | nil => simp at hmem
    | cons p rest ih =>
      obtain ⟨pn, pt⟩ := p
      rcases List.mem_cons.1 hmem with heq | hmem2
      · injection heq with h1 h2
        subst h1
        subst h2
        simp only [add_languages, hM]
        exact List.mem_cons_self _ _
      · simp only [add_languages]
        cases hc : dictLookup pn auxM with
        | none => exact List.mem_cons_of_mem _ (ih hmem2)
        | some e2 => exact List.mem_cons_of_mem _ (ih hmem2)

/-- Witness for C6: a two-entry index holding an Order node and a Species
node, with matching complementary and multilingual aux entries for the
Order name. -/
theorem c6_witness :
    (("Passeriformes",
        Taxon.node { rank := Rank.Order, name := "Passeriformes" } []) ∈
      [("Passeriformes",
         Taxon.node { rank := Rank.Order, name := "Passeriformes" } []),
       ("Corvus corax",
         Taxon.node { rank := Rank.Species, name := "corax" } [])]) ∧
    ((("Passeriformes",
        Taxon.node { rank := Rank.Order, name := "Passeriformes" } []) ∈
      add_complementary_info
        [(CKey.str "Passeriformes", { extinct := some "E", code := some "C" })]
        [("Passeriformes",
           Taxon.node { rank := Rank.Order, name := "Passeriformes" } []),
         ("Corvus corax",
           Taxon.node { rank := Rank.Species, name := "corax" } [])]) ∧
    (("Passeriformes",
        mapData (fun d =>
          { d with common_names := dictUpdate d.common_names [("sv", some "tättingar")] })
          (Taxon.node { rank := Rank.Order, name := "Passeriformes" } [])) ∈
      add_languages [("Passeriformes", [("sv", some "tättingar")])]
        [("Passeriformes",
           Taxon.node { rank := Rank.Order, name := "Passeriformes" } []),
         ("Corvus corax",
           Taxon.node { rank := Rank.Species, name := "corax" } [])])) := by
  refine ⟨by simp, c6_merge_scoping _ _ _ _ _ _ _ (by simp) rfl rfl rfl⟩

/-- C7.  In the complementary reader, a Species row binds the reader's
`species` local to that row's column-6 cell — the authority column — and a
subsequent "ssp" row stores its entry under the key
`species + " " + row[5].split()[2]`, i.e. the previous Species row's
authority cell concatenated with the third token of the ssp row's name
cell; the Species row's own name cell (column 5) is not used. -/
theorem c7_ssp_key_from_species_authority (st st2 : ComplState)
    (r rs : ComplRow) (sp : Option String) (c5cell tok : String)
    (hA : r.c1 = some "Species")
    (hB1 : rs.c1 ≠ some "Blank") (hB2 : rs.c1 ≠ some "ORDER")
    (hB3 : rs.c1 ≠ some "Family") (hB4 : rs.c1 ≠ some "Genus")
    (hB5 : rs.c1 ≠ some "Species")
    (hB6 : rs.c2 = some "ssp")
    (hsp : st2.species = some sp)
    (hc5 : rs.c5 = some c5cell)
    (htok : (pySplit c5cell).get? 2 = some tok) :
    (∃ w2, complStep st r = Except.ok w2 ∧ w2.species = some r.c6) ∧
    (∃ e, complStep st2 rs = Except.ok
        { st2 with taxonomy :=
            cinsert (CKey.str (sp.getD "" ++ " " ++ tok)) e st2.taxonomy } ∧
      e.rank = some "Subspecies" ∧ e.authority = rs.c6) := by
  constructor
  · simp only [complStep, hA]
    simp only [Option.some.injEq, String.reduceEq, if_false, if_true, reduceIte]
    exact ⟨_, rfl, rfl⟩
  · simp only [complStep, if_neg hB1, if_neg hB2, if_neg hB3, if_neg hB4,
      if_neg hB5, if_pos hB6, hsp, hc5, htok]
    exact ⟨_, rfl, rfl, rfl⟩

/-- Witness for C7: a concrete Species row (name cell "Corvus corax",
authority cell "Linnaeus, 1758") followed by an ssp row whose name cell is
"Corvus corax principalis"; the ssp key is built from the authority, not
the species name. -/
theorem c7_witness :
    (∃ w2, complStep {}
        { c1 := some "Species", c5 := some "Corvus corax",
          c6 := some "Linnaeus, 1758" } = Except.ok w2 ∧
      w2.species = some (some "Linnaeus, 1758")) ∧
    (∃ e, complStep
        { taxonomy := [], species := some (some "Linnaeus, 1758") }
        { c2 := some "ssp", c5 := some "Corvus corax principalis",
          c6 := some "Ridgway, 1887" } = Except.ok
        { taxonomy :=
            cinsert (CKey.str ((some "Linnaeus, 1758").getD "" ++ " " ++
              "principalis")) e [],
          species := some (some "Linnaeus, 1758") } ∧
      e.rank = some "Subspecies" ∧
      e.authority = some "Ridgway, 1887") := by
  refine c7_ssp_key_from_species_authority {} _ _ _ _ "Corvus corax principalis" _
    rfl ?_ ?_ ?_ ?_ ?_ rfl rfl rfl ?_
  all_goals first
    | rfl
    | simp

/-- C9.  When the target directory already exists, the write path fails
with the directory-already-exists error and changes nothing: no directory
is created and no file — the version marker included — is written. -/
theorem c9_existing_dir_write_guard (st : FsState) (p : String) (w : IocWbl)
    (h : p ∈ st.dirs) :
    handleWriteBranch st p w = (st, some WriteErr.dataDirExistsAlready) := by
  simp [handleWriteBranch, h]

/-- Witness for C9: the target `out/ioc` already exists. -/
theorem c9_witness :
    ("out/ioc" ∈ (FsState.dirs { dirs := ["out/ioc"], files := [] })) ∧
    handleWriteBranch { dirs := ["out/ioc"], files := [] } "out/ioc" wPN =
      ({ dirs := ["out/ioc"], files := [] }, some WriteErr.dataDirExistsAlready) :=
  ⟨by simp, c9_existing_dir_write_guard _ _ _ (by simp)⟩

/-- C10.  Each of the three merge passes maps the index pointwise: no
taxon is removed, no name changes position, and every taxon keeps its
`name`, `rank`, `supertaxon` and `subtaxa`; the merges only write the
overlay fields (`following_entries`, `lists`, `common_names`, `extinct`,
`code`). -/
theorem c10_merges_preserve_structure (auxO : List (String × OLAux))
    (auxM : List (String × List (String × Option String)))
    (auxC : List (CKey × ComplEntry)) (idx : List (String × Taxon)) :
    preservesStructure idx (add_other_lists auxO idx) ∧
    preservesStructure idx (add_languages auxM idx) ∧
    preservesStructure idx (add_complementary_info auxC idx) := by
  refine ⟨?_, ?_, ?_⟩
  · induction idx with
    | nil => exact List.Forall₂.nil
    | cons p rest ih =>
      obtain ⟨pn, pt⟩ := p
      simp only [add_other_lists]
      cases hc : dictLookup pn auxO with
      | none => exact List.Forall₂.cons ⟨rfl, rfl, rfl, rfl, rfl⟩ ih
      | some a =>
        refine List.Forall₂.cons ⟨rfl, ?_, ?_, ?_, ?_⟩ ih <;>
          simp [mapData_data, mapData_subtaxa]
  · induction idx with
    | nil => exact List.Forall₂.nil
    | cons p rest ih =>
      obtain ⟨pn, pt⟩ := p
      simp only [add_languages]
      cases hc : dictLookup pn auxM with
      | none => exact List.Forall₂.cons ⟨rfl, rfl, rfl, rfl, rfl⟩ ih
      | some a =>
        refine List.Forall₂.cons ⟨rfl, ?_, ?_, ?_, ?_⟩ ih <;>
          simp [mapData_data, mapData_subtaxa]
  · induction idx with
    | nil => exact List.Forall₂.nil
    | cons p rest ih =>
      obtain ⟨pn, pt⟩ := p
      simp only [add_complementary_info]
      split
      · split
        · refine List.Forall₂.cons ⟨rfl, ?_, ?_, ?_, ?_⟩ ih <;>
            simp [mapData_data, mapData_subtaxa]
        · exact List.Forall₂.cons ⟨rfl, rfl, rfl, rfl, rfl⟩ ih
      · exact List.Forall₂.cons ⟨rfl, rfl, rfl, rfl, rfl⟩ ih

/-- `len(set(l)) <= 1` says exactly that all elements of `l` are equal. -/
theorem dedup_length_le_one_iff {α : Type} [DecidableEq α] (l : List α) :
    l.dedup.length ≤ 1 ↔ ∀ a ∈ l, ∀ b ∈ l, a = b := by
  constructor
  · intro h a ha b hb
    have ha2 : a ∈ l.dedup := List.mem_dedup.2 ha
    have hb2 : b ∈ l.dedup := List.mem_dedup.2 hb
    rcases hd : l.dedup with - | ⟨x, xs⟩
    · rw [hd] at ha2
      simp at ha2
    · rcases xs with - | ⟨y, r⟩
      · rw [hd] at ha2 hb2
        simp at ha2 hb2
        rw [ha2, hb2]
      · rw [hd] at h
        simp at h
  · intro h
    rcases hd : l.dedup with - | ⟨x, xs⟩
    · simp
    · rcases xs with - | ⟨y, r⟩
      · simp
      · exfalso
        have hnd := l.nodup_dedup
        rw [hd] at hnd
        have hx : x ∈ l := List.mem_dedup.1 (by rw [hd]; simp)
        have hy : y ∈ l := List.mem_dedup.1 (by rw [hd]; simp)
        have hxy := h x hx y hy
        rcases List.nodup_cons.1 hnd with ⟨hxny, -⟩
        exact hxny (hxy ▸ List.mem_cons_self y r)

/-- C8 counterexample.  Two concrete batches refute the claim as stated:
the src/iocfiles.py revision rejects the empty batch with
MultipleVersionsOfIocFiles although its (zero) detected versions are
vacuously all identical; and a batch of two same-kind files with different
versions is rejected by the ts-ioc revision with
MultipleIocFilesOfSameType, not MultipleVersionsOfIocFiles, although its
versions are not all identical. -/
theorem c8_counterexample :
    sorted_ioc_files_src ([] : List IocFile) =
      Except.error BatchErr.multipleVersionsOfIocFiles ∧
    sorted_ioc_files
      [ { order := 1, version := some "7.3" },
        { order := 1, version := some "8.1" } ] =
      Except.error BatchErr.multipleIocFilesOfSameType := by
  exact ⟨rfl, rfl⟩

/-- C8 as amended.  For batches whose kinds are pairwise distinct (the
duplicate-kind check passes), ts-ioc's `sorted_ioc_files` raises
MultipleVersionsOfIocFiles exactly when the detected versions are not all
identical — in particular an empty batch is accepted — while the
src/iocfiles.py revision checks `len(set(versions)) == 1` and so raises it
exactly when the versions are not all identical or the batch is empty. -/
theorem c8_version_check (files : List IocFile)
    (hk : (files.map (fun f => f.order)).dedup.length = files.length) :
    (sorted_ioc_files files = Except.error BatchErr.multipleVersionsOfIocFiles ↔
      ¬ (∀ a ∈ files.map (fun f => f.version),
          ∀ b ∈ files.map (fun f => f.version), a = b)) ∧
    (sorted_ioc_files_src files = Except.error BatchErr.multipleVersionsOfIocFiles ↔
      (files = [] ∨ ¬ (∀ a ∈ files.map (fun f => f.version),
          ∀ b ∈ files.map (fun f => f.version), a = b))) := by
  have hlen : (files.map (fun f => f.order)).length = files.length := by
    simp
  have h1 : ¬ ((files.map (fun f => f.order)).dedup.length ≠
      (files.map (fun f => f.order)).length) := by
    rw [hk, hlen]
    simp
  constructor
  · rw [sorted_ioc_files, if_neg h1]
    by_cases hv : (files.map (fun f => f.version)).dedup.length > 1
    · rw [if_pos hv]
      simp only [true_iff]
      rw [← dedup_length_le_one_iff]
      omega
    · rw [if_neg hv]
      constructor
      · intro h
        simp at h
      · intro h
        exfalso
        rw [← dedup_length_le_one_iff] at h
        omega
  · rw [sorted_ioc_files_src, if_neg h1]
    by_cases hv : (files.map (fun f => f.version)).dedup.length ≠ 1
    · rw [if_pos hv]
      simp only [true_iff]
      rcases Nat.lt_or_ge (files.map (fun f => f.version)).dedup.length 1 with hlt | hge
      · left
        have h0 : (files.map (fun f => f.version)).dedup = [] :=
          List.length_eq_zero.1 (by omega)
        have h2 := (List.dedup_eq_nil _).1 h0
        simpa using h2
      · right
        rw [← dedup_length_le_one_iff]
        omega
    · rw [if_neg hv]
      constructor
      · intro h
        simp at h
      · intro h
        exfalso
        rcases h with hnil | hne
        · subst hnil
          simp [List.dedup] at hv
        · rw [← dedup_length_le_one_iff] at hne
          omega

/-- Witness for C8 as amended: a two-file batch of distinct kinds and equal
versions. -/
theorem c8_witness :
    ((([ { order := 1, version := some "14.1" },
         { order := 3, version := some "14.1" } ] : List IocFile).map
        (fun f => f.order)).dedup.length =
      ([ { order := 1, version := some "14.1" },
         { order := 3, version := some "14.1" } ] : List IocFile).length) ∧
    ((sorted_ioc_files
        [ { order := 1, version := some "14.1" },
          { order := 3, version := some "14.1" } ] =
        Except.error BatchErr.multipleVersionsOfIocFiles ↔
      ¬ (∀ a ∈ ([ { order := 1, version := some "14.1" },
            { order := 3, version := some "14.1" } ] : List IocFile).map
            (fun f => f.version),
          ∀ b ∈ ([ { order := 1, version := some "14.1" },
            { order := 3, version := some "14.1" } ] : List IocFile).map
            (fun f => f.version), a = b)) ∧
    (sorted_ioc_files_src
        [ { order := 1, version := some "14.1" },
          { order := 3, version := some "14.1" } ] =
        Except.error BatchErr.multipleVersionsOfIocFiles ↔
      (([ { order := 1, version := some "14.1" },
          { order := 3, version := some "14.1" } ] : List IocFile) = [] ∨
        ¬ (∀ a ∈ ([ { order := 1, version := some "14.1" },
              { order := 3, version := some "14.1" } ] : List IocFile).map
              (fun f => f.version),
            ∀ b ∈ ([ { order := 1, version := some "14.1" },
              { order := 3, version := some "14.1" } ] : List IocFile).map
              (fun f => f.version), a = b)))) :=
  ⟨rfl, c8_version_check _ rfl⟩

/-! ## Round-trip machinery: the write side -/

theorem fsKeys_append (a b : FS) : fsKeys (a ++ b) = fsKeys a ++ fsKeys b := by
  simp [fsKeys]

theorem fsKeys_entriesTaxon (d : TaxonData) (subs : List Taxon) :
    fsKeys (entriesTaxon (Taxon.node d subs)) =
      fnamesList subs ++ [fnameD d] := by
  simp [entriesTaxon, fnamesList, fsKeys]

theorem fnamesList_cons (t : Taxon) (ts : List Taxon) :
    fnamesList (t :: ts) = fsKeys (entriesTaxon t) ++ fnamesList ts := by
  simp [fnamesList, entriesList, fsKeys]

/-- Inserting a fresh key into a Python dict appends the binding. -/
theorem dictInsert_fresh {β : Type} (k : String) (v : β)
    (fs : List (String × β)) (h : k ∉ fs.map (fun e => e.1)) :
    dictInsert k v fs = fs ++ [(k, v)] := by
  induction fs with
  | nil => rfl
  | cons p rest ih =>
    obtain ⟨pk, pv⟩ := p
    simp only [List.map_cons, List.mem_cons] at h
    push_neg at h
    obtain ⟨h1, h2⟩ := h
    have h1b : ¬(pk = k) := fun hh => h1 hh.symm
    simp only [dictInsert, if_neg h1b, List.cons_append,
      List.cons.injEq, true_and]
    exact ih h2

mutual

/-- Under fresh, duplicate-free file names, writing a subtree appends its
entries to the directory. -/
theorem writeTaxon_eq (fs : FS) (t : Taxon)
    (hdis : ∀ k ∈ fsKeys (entriesTaxon t), k ∉ fsKeys fs)
    (hnd : (fsKeys (entriesTaxon t)).Nodup) :
    writeTaxon fs t = fs ++ entriesTaxon t := by
  cases t with
  | node d subs =>
    rw [fsKeys_entriesTaxon] at hdis hnd
    have hdis2 : ∀ k ∈ fnamesList subs, k ∉ fsKeys fs := by
      intro k hk
      exact hdis k (by simp [hk])
    have hnd2 : (fnamesList subs).Nodup := (List.nodup_append.1 hnd).1
    have hw := writeList_eq fs subs hdis2 hnd2
    have hfresh : fnameD d ∉ fsKeys (fs ++ entriesList subs) := by
      rw [fsKeys_append]
      simp only [List.mem_append]
      push_neg
      constructor
      · exact hdis (fnameD d) (by simp)
      · have hdj := (List.nodup_append.1 hnd).2.2
        intro hmem
        exact hdj hmem (by simp)
    calc writeTaxon fs (Taxon.node d subs)
        = dictInsert (fnameD d) (FVal.tax d (subFiles subs)) (writeList fs subs) := by
          rw [writeTaxon]
      _ = dictInsert (fnameD d) (FVal.tax d (subFiles subs)) (fs ++ entriesList subs) := by
          rw [hw]
      _ = (fs ++ entriesList subs) ++ [(fnameD d, FVal.tax d (subFiles subs))] :=
          dictInsert_fresh _ _ _ hfresh
      _ = fs ++ entriesTaxon (Taxon.node d subs) := by
          rw [entriesTaxon, List.append_assoc]

/-- Under fresh, duplicate-free file names, writing a forest appends its
entries to the directory. -/
theorem writeList_eq (fs : FS) (ts : List Taxon)
    (hdis : ∀ k ∈ fnamesList ts, k ∉ fsKeys fs)
    (hnd : (fnamesList ts).Nodup) :
    writeList fs ts = fs ++ entriesList ts := by
  cases ts with
  | nil => simp [writeList, entriesList]
  | cons t rest =>
    rw [fnamesList_cons] at hdis hnd
    have hdisT : ∀ k ∈ fsKeys (entriesTaxon t), k ∉ fsKeys fs := by
      intro k hk
      exact hdis k (by simp [hk])
    have hndT : (fsKeys (entriesTaxon t)).Nodup := (List.nodup_append.1 hnd).1
    have hw := writeTaxon_eq fs t hdisT hndT
    have hdisR : ∀ k ∈ fnamesList rest, k ∉ fsKeys (writeTaxon fs t) := by
      intro k hk
      rw [hw, fsKeys_append]
      simp only [List.mem_append]
      push_neg
      constructor
      · exact hdis k (by simp [hk])
      · intro hmem
        exact (List.nodup_append.1 hnd).2.2 hmem hk
    have hndR : (fnamesList rest).Nodup := (List.nodup_append.1 hnd).2.1
    calc writeList fs (t :: rest)
        = writeList (writeTaxon fs t) rest := by rw [writeList]
      _ = writeTaxon fs t ++ entriesList rest := writeList_eq _ rest hdisR hndR
      _ = fs ++ (entriesTaxon t ++ entriesList rest) := by rw [hw, List.append_assoc]
      _ = fs ++ entriesList (t :: rest) := by rw [entriesList]

end

/-! ## Round-trip machinery: the load side -/

/-- In a duplicate-free directory, lookup finds any stored binding. -/
theorem dictLookup_of_mem {β : Type} {k : String} {v : β}
    {fs : List (String × β)} (hnd : (fs.map (fun e => e.1)).Nodup)
    (hmem : (k, v) ∈ fs) : dictLookup k fs = some v := by
  induction fs with
  | nil => simp at hmem
  | cons p rest ih =>
    obtain ⟨pk, pv⟩ := p
    simp only [List.map_cons, List.nodup_cons] at hnd
    obtain ⟨hpk, hnd2⟩ := hnd
    rcases List.mem_cons.1 hmem with heq | hmem2
    · injection heq with h1 h2
      subst h1
      subst h2
      simp [dictLookup]
    · have hne : pk ≠ k := by
        intro hh
        subst hh
        exact hpk (by
          have : (pk, v) ∈ rest := hmem2
          exact List.mem_map.2 ⟨(pk, v), this, rfl⟩)
      simp only [dictLookup, if_neg hne]
      exact ih hnd2 hmem2

mutual

/-- Every node of a subtree has its record among the subtree's entries. -/
theorem mem_entriesTaxon (x t : Taxon) (hx : x ∈ nodesTaxon t) :
    (fnameD x.data, FVal.tax x.data (subFiles x.subtaxa)) ∈ entriesTaxon t := by
  cases t with
  | node d subs =>
    simp only [nodesTaxon, List.mem_cons] at hx
    rcases hx with heq | hmem
    · subst heq
      simp [entriesTaxon]
    · have := mem_entriesList x subs hmem
      simp only [entriesTaxon, List.mem_append]
      exact Or.inl this

/-- Every node of a forest has its record among the forest's entries. -/
theorem mem_entriesList (x : Taxon) (ts : List Taxon) (hx : x ∈ nodesList ts) :
    (fnameD x.data, FVal.tax x.data (subFiles x.subtaxa)) ∈ entriesList ts := by
  cases ts with
  | nil => simp [nodesList] at hx
  | cons t rest =>
    simp only [nodesList, List.mem_append] at hx
    simp only [entriesList, List.mem_append]
    rcases hx with hmem | hmem
    · exact Or.inl (mem_entriesTaxon x t hmem)
    · exact Or.inr (mem_entriesList x rest hmem)

end

mutual

/-- With every node's record present in the directory and enough fuel, the
loader reconstructs a subtree exactly. -/
theorem loadTaxon_reconstruct (fsT : FS) (t : Taxon) :
    ∀ (fuel : Nat), depthTaxon t ≤ fuel →
    (∀ x ∈ nodesTaxon t,
      dictLookup (fnameD x.data) fsT =
        some (FVal.tax x.data (subFiles x.subtaxa))) →
    loadTaxon fuel fsT (fnameD t.data) = some t := by
  cases t with
  | node d subs =>
    intro fuel hdepth hloo
    have hd : depthList subs + 1 ≤ fuel := by
      simpa [depthTaxon] using hdepth
    obtain ⟨f2, rfl⟩ : ∃ f2, fuel = f2 + 1 := by
      cases fuel with
      | zero => omega
      | succ f => exact ⟨f, rfl⟩
    have hself := hloo (Taxon.node d subs) (by simp [nodesTaxon])
    simp only [data_node, subtaxa_node] at hself
    rw [loadTaxon]
    simp only [data_node]
    rw [hself]
    have hsubs := loadNames_reconstruct fsT subs f2 (by omega)
      (fun x hx => hloo x (by simp [nodesTaxon, hx]))
    simp [hsubs]

/-- With every node's record present and enough fuel, the loader
reconstructs a forest from its `subtaxa_files` list exactly. -/
theorem loadNames_reconstruct (fsT : FS) (ts : List Taxon) :
    ∀ (fuel : Nat), depthList ts ≤ fuel →
    (∀ x ∈ nodesList ts,
      dictLookup (fnameD x.data) fsT =
        some (FVal.tax x.data (subFiles x.subtaxa))) →
    loadNames (fun n => loadTaxon fuel fsT n) (subFiles ts) = some ts := by
  cases ts with
  | nil =>
    intro fuel hdepth hloo
    rfl
  | cons t rest =>
    intro fuel hdepth hloo
    simp only [depthList, max_le_iff] at hdepth
    have h1 := loadTaxon_reconstruct fsT t fuel hdepth.1
      (fun x hx => hloo x (by simp [nodesList, List.mem_append, hx]))
    have h2 := loadNames_reconstruct fsT rest fuel hdepth.2
      (fun x hx => hloo x (by simp [nodesList, List.mem_append, hx]))
    simp only [subFiles, List.map_cons] at h2 ⊢
    rw [loadNames, h1, h2]

end

mutual

/-- Entries of a non-Infraclass subtree contain no Infraclass record. -/
theorem filter_entriesTaxon_nonInfra (p : String) (t : Taxon)
    (h : elemOk p t = true) :
    (entriesTaxon t).filter isInfraFile = [] := by
  cases t with
  | node d subs =>
    rw [elemOk_eq] at h
    simp only [data_node, subtaxa_node, Bool.and_eq_true, Bool.not_eq_eq_eq_not,
      Bool.not_true, beq_eq_false_iff_ne, ne_eq] at h
    obtain ⟨⟨-, hrk⟩, hgl⟩ := h
    rw [entriesTaxon, List.filter_append]
    rw [filter_entriesList_nonInfra d.name subs hgl]
    simp [isInfraFile, hrk]

/-- Entries of a forest of non-Infraclass subtrees contain no Infraclass
record. -/
theorem filter_entriesList_nonInfra (p : String) (ts : List Taxon)
    (h : goodL p ts = true) :
    (entriesList ts).filter isInfraFile = [] := by
  cases ts with
  | nil => rfl
  | cons t rest =>
    simp only [goodL, Bool.and_eq_true] at h
    rw [entriesList, List.filter_append]
    rw [filter_entriesTaxon_nonInfra p t h.1, filter_entriesList_nonInfra p rest h.2]
    rfl

end

/-- The Infraclass records of a well-formed forest's directory are exactly
the top-level records, in order. -/
theorem filter_infra_roots (ts : List Taxon) (h : forestOk ts = true) :
    (entriesList ts).filter isInfraFile =
      ts.map (fun t => (fnameD t.data, FVal.tax t.data (subFiles t.subtaxa))) := by
  induction ts with
  | nil => rfl
  | cons t rest ih =>
    simp only [forestOk, List.all_cons, Bool.and_eq_true] at h
    obtain ⟨hroot, htail⟩ := h
    rw [entriesList, List.filter_append, ih htail]
    cases t with
    | node d subs =>
      simp only [rootOk, data_node, subtaxa_node, Bool.and_eq_true, beq_iff_eq] at hroot
      obtain ⟨hrk, hgl⟩ := hroot
      rw [entriesTaxon, List.filter_append]
      rw [filter_entriesList_nonInfra d.name subs hgl]
      simp [isInfraFile, hrk]

theorem sortedNames_tail {x : String} {xs : List String}
    (h : sortedNames (x :: xs) = true) : sortedNames xs = true := by
  cases xs with
  | nil => rfl
  | cons y r =>
    simp only [sortedNames, Bool.and_eq_true] at h
    exact h.2

/-- Insertion sort leaves an already-sorted list unchanged. -/
theorem sortNames_sorted (l : List String) (h : sortedNames l = true) :
    sortNames l = l := by
  induction l with
  | nil => rfl
  | cons x xs ih =>
    rw [sortNames, ih (sortedNames_tail h)]
    cases xs with
    | nil => rfl
    | cons y r =>
      simp only [sortedNames, Bool.and_eq_true] at h
      simp [insertSorted, h.1]

mutual

/-- A subtree below a named parent contains no Infraclass node. -/
theorem rcT_infra_zero (p : String) (t : Taxon) (h : elemOk p t = true) :
    rcT Rank.Infraclass t = 0 := by
  cases t with
  | node d subs =>
    rw [elemOk_eq] at h
    simp only [data_node, subtaxa_node, Bool.and_eq_true, Bool.not_eq_eq_eq_not,
      Bool.not_true, beq_eq_false_iff_ne, ne_eq] at h
    obtain ⟨⟨-, hrk⟩, hgl⟩ := h
    rw [rcT, rcL_infra_zero d.name subs hgl]
    simp [hrk]

/-- A well-linked forest below a named parent contains no Infraclass node. -/
theorem rcL_infra_zero (p : String) (ts : List Taxon) (h : goodL p ts = true) :
    rcL Rank.Infraclass ts = 0 := by
  cases ts with
  | nil => rfl
  | cons t rest =>
    simp only [goodL, Bool.and_eq_true] at h
    rw [rcL, rcT_infra_zero p t h.1, rcL_infra_zero p rest h.2]

end

/-- In a well-formed forest the Infraclass count is the number of
top-level taxa. -/
theorem rcL_infra_forest (ts : List Taxon) (h : forestOk ts = true) :
    rcL Rank.Infraclass ts = ts.length := by
  induction ts with
  | nil => rfl
  | cons t rest ih =>
    simp only [forestOk, List.all_cons, Bool.and_eq_true] at h
    obtain ⟨hroot, htail⟩ := h
    cases t with
    | node d subs =>
      simp only [rootOk, data_node, subtaxa_node, Bool.and_eq_true, beq_iff_eq] at hroot
      obtain ⟨hrk, hgl⟩ := hroot
      rw [rcL, rcT, rcL_infra_zero d.name subs hgl, ih htail]
      simp [hrk, List.length_cons]
      omega

mutual

/-- What `_load_subtaxa` tallies over the strict descendants of a node. -/
theorem tallyTaxon_eq (t : Taxon) (s : Stats) :
    tallyTaxon t s =
      { infraclass_count := s.infraclass_count
        order_count := s.order_count + rcL Rank.Order t.subtaxa
        family_count := s.family_count + rcL Rank.Family t.subtaxa
        genus_count := s.genus_count + rcL Rank.Genus t.subtaxa
        species_count := s.species_count + rcL Rank.Species t.subtaxa
        subspecies_count := s.subspecies_count + rcL Rank.Subspecies t.subtaxa } := by
  cases t with
  | node d subs =>
    rw [tallyTaxon, tallyList_eq subs s]
    simp

/-- What `_load_subtaxa` tallies over all nodes of a forest: every rank
below Infraclass is counted; Infraclass records match no branch. -/
theorem tallyList_eq (ts : List Taxon) (s : Stats) :
    tallyList ts s =
      { infraclass_count := s.infraclass_count
        order_count := s.order_count + rcL Rank.Order ts
        family_count := s.family_count + rcL Rank.Family ts
        genus_count := s.genus_count + rcL Rank.Genus ts
        species_count := s.species_count + rcL Rank.Species ts
        subspecies_count := s.subspecies_count + rcL Rank.Subspecies ts } := by
  cases ts with
  | nil =>
    cases s
    simp [tallyList, rcL]
  | cons t rest =>
    rw [tallyList, tallyList_eq rest _, tallyTaxon_eq t _]
    cases hrk : t.data.rank <;>
      simp [childTally, hrk, rcL, rcT_eq, Stats.mk.injEq] <;> omega

end

/-- The statistics regenerated by `load_taxonomy` over a well-formed
forest. -/
theorem loadStats_eq (ts : List Taxon) : ∀ (s0 : Stats), forestOk ts = true →
    ts.foldl (fun s t => tallyTaxon t
      { s with infraclass_count := s.infraclass_count + 1 }) s0 =
    { infraclass_count := s0.infraclass_count + ts.length
      order_count := s0.order_count + rcL Rank.Order ts
      family_count := s0.family_count + rcL Rank.Family ts
      genus_count := s0.genus_count + rcL Rank.Genus ts
      species_count := s0.species_count + rcL Rank.Species ts
      subspecies_count := s0.subspecies_count + rcL Rank.Subspecies ts } := by
  induction ts with
  | nil =>
    intro s0 h
    cases s0
    simp [rcL]
  | cons t rest ih =>
    intro s0 h
    simp only [forestOk, List.all_cons, Bool.and_eq_true] at h
    obtain ⟨hroot, htail⟩ := h
    rw [List.foldl_cons, tallyTaxon_eq t _, ih _ htail]
    cases t with
    | node d subs =>
      simp only [rootOk, data_node, subtaxa_node, Bool.and_eq_true, beq_iff_eq] at hroot
      obtain ⟨hrk, hgl⟩ := hroot
      simp only [subtaxa_node, rcL, rcT, hrk, data_node, Stats.mk.injEq,
        List.length_cons]
      refine ⟨by omega, ?_, ?_, ?_, ?_, ?_⟩ <;> simp <;> omega

/-- C2 counterexample.  The claim requires `load(write(T)) = T` for every
taxonomy built from a valid Master source.  The real checklist lists
PALEOGNATHAE before NEOGNATHAE; writing that two-root taxonomy and loading
it back returns the roots in glob (sorted file name) order — NEOGNATHAE
first — so the loaded tree differs from the built one in top-level order. -/
theorem c2_counterexample :
    read rowsPN = Except.ok wPN ∧
    wPN.taxonomy.map (fun t => t.data.name) = ["PALEOGNATHAE", "NEOGNATHAE"] ∧
    (load_taxonomy 2 (write_to_files wPN)).map
      (fun w2 => w2.taxonomy.map (fun t => t.data.name)) =
      some ["NEOGNATHAE", "PALEOGNATHAE"] ∧
    load_taxonomy 2 (write_to_files wPN) ≠ some wPN := by
  refine ⟨rfl, rfl, rfl, ?_⟩
  intro h
  have h2 : (["NEOGNATHAE", "PALEOGNATHAE"] : List String) =
      ["PALEOGNATHAE", "NEOGNATHAE"] := by
    have h3 := congrArg (fun o => (Option.map
      (fun w2 => w2.taxonomy.map (fun t => t.data.name)) o).getD []) h
    exact h3
  simp at h2

/-- C2 as amended.  For a taxonomy built by the Master reader whose derived
file names are pairwise distinct and distinct from the version marker, and
whose top-level file names are already in glob order, writing to files and
loading back reproduces the tree (shape, names and every field), the
version, and the per-rank counters exactly.  Without the glob-order
premise the tree and fields still round-trip but the top-level Infraclass
order comes back sorted (see the counterexample). -/
theorem c2_roundtrip (rows : List MasterRow) (w : IocWbl) (fuel : Nat)
    (hread : read rows = Except.ok w)
    (hnd : (fnamesList w.taxonomy).Nodup)
    (hver : "version.json" ∉ fnamesList w.taxonomy)
    (hsorted : sortedNames (subFiles w.taxonomy) = true)
    (hfuel : depthList w.taxonomy ≤ fuel) :
    ∃ w2, load_taxonomy fuel (write_to_files w) = some w2 ∧
      w2.taxonomy = w.taxonomy ∧ w2.version = w.version ∧
      w2.stats = w.stats := by
  obtain ⟨hfo, hic, hor, hfa, hge, hsp, hss, -⟩ := read_inv hread
  have hw : write_to_files w =
      ("version.json", FVal.ver w.version) :: entriesList w.taxonomy := by
    rw [write_to_files]
    rw [writeList_eq _ w.taxonomy ?_ hnd]
    · rfl
    · intro k hk
      simp only [fsKeys, List.map_cons, List.map_nil, List.mem_singleton]
      intro hkv
      subst hkv
      exact hver hk
  have hkeys : ((write_to_files w).map (fun e => e.1)).Nodup := by
    rw [hw]
    simp only [List.map_cons, List.nodup_cons]
    exact ⟨hver, hnd⟩
  have hloo : ∀ x ∈ nodesList w.taxonomy,
      dictLookup (fnameD x.data) (write_to_files w) =
        some (FVal.tax x.data (subFiles x.subtaxa)) := by
    intro x hx
    refine dictLookup_of_mem hkeys ?_
    rw [hw]
    exact List.mem_cons_of_mem _ (mem_entriesList x w.taxonomy hx)
  have hverlook : dictLookup "version.json" (write_to_files w) =
      some (FVal.ver w.version) := by
    rw [hw]
    simp [dictLookup]
  have hif : infraFiles (write_to_files w) = subFiles w.taxonomy := by
    rw [infraFiles, hw]
    have hfil : (("version.json", FVal.ver w.version) ::
        entriesList w.taxonomy).filter isInfraFile =
        w.taxonomy.map (fun t =>
          (fnameD t.data, FVal.tax t.data (subFiles t.subtaxa))) := by
      rw [List.filter_cons]
      simp only [isInfraFile, Bool.false_eq_true, if_false, reduceIte]
      exact filter_infra_roots w.taxonomy hfo
    rw [hfil]
    have hmap : (w.taxonomy.map (fun t =>
        (fnameD t.data, FVal.tax t.data (subFiles t.subtaxa)))).map
          (fun e => e.1) = subFiles w.taxonomy := by
      rw [List.map_map]
      rfl
    rw [hmap]
    exact sortNames_sorted _ hsorted
  have hload := loadNames_reconstruct (write_to_files w) w.taxonomy fuel
    hfuel hloo
  rw [load_taxonomy, hverlook]
  simp only [hif, hload]
  refine ⟨_, rfl, rfl, rfl, ?_⟩
  rw [loadStats_eq w.taxonomy {} hfo]
  simp only [Nat.zero_add]
  rw [← rcL_infra_forest w.taxonomy hfo, ← hic, ← hor, ← hfa, ← hge,
    ← hsp, ← hss]

/-- Witness for C2 as amended: the five-row Corvus corax chain, whose five
file names are distinct and whose single top-level file name is trivially
in glob order. -/
theorem c2_witness :
    read rowsC3 = Except.ok (okState (read rowsC3)) ∧
    (fnamesList (okState (read rowsC3)).taxonomy).Nodup ∧
    "version.json" ∉ fnamesList (okState (read rowsC3)).taxonomy ∧
    sortedNames (subFiles (okState (read rowsC3)).taxonomy) = true ∧
    depthList (okState (read rowsC3)).taxonomy ≤ 5 ∧
    ∃ w2, load_taxonomy 5 (write_to_files (okState (read rowsC3))) = some w2 ∧
      w2.taxonomy = (okState (read rowsC3)).taxonomy ∧
      w2.version = (okState (read rowsC3)).version ∧
      w2.stats = (okState (read rowsC3)).stats := by
  refine ⟨rfl, ?_, ?_, rfl, ?_, ?_⟩
  · decide
  · decide
  · decide
  · exact c2_roundtrip rowsC3 (okState (read rowsC3)) 5 rfl (by decide)
      (by decide) rfl (by decide)

end Coral
